import Mathlib

/-!
Shallow embedding of the tam-rs streaming indicators:
`AverageDirectionalIndex` (src/indicators/average_directional_index.rs),
`RelativeStrengthIndex` (src/indicators/relative_strength_index.rs) and
`Correlation` (src/indicators/correlation.rs).

`f64` values are modelled as exact rationals (`ℚ`); `f64::NAN` results are
modelled as `none : Option ℚ`.  The square root in `Correlation`'s output
lands in `ℝ`, which makes `Correlation.output` (and only it and its two
wrappers) non-executable.  A second model of `Correlation::next`
(`CorrelationF`, over integer mantissa/exponent pairs) makes the IEEE-754
binary64 rounding of every single arithmetic operation explicit and
kernel-computable; it is used only for the bit-exact regression values of
the correlation test vector.  Fallible construction is modelled with
`Except`.
-/

/-- The single error kind of the library (src/errors). -/
inductive TaError where
  | InvalidParameter
deriving DecidableEq

/-- The high/low/close view of a price bar (the `High + Low + Close` bound
on `Next::next`). -/
structure Bar where
  high : ℚ
  low : ℚ
  close : ℚ
deriving DecidableEq

/-- Rust's `f64::round`: nearest integer, ties away from zero. -/
def fround (x : ℚ) : ℚ :=
  if 0 ≤ x then ((⌊x + 1/2⌋ : ℤ) : ℚ) else ((⌈x - 1/2⌉ : ℤ) : ℚ)

/-- The Wilder recurrence `acc = acc - acc/period + newValue` as it appears
textually in the ADX smoothing phases. -/
def wilderStep (period : ℕ) (acc v : ℚ) : ℚ :=
  acc - acc / (period : ℚ) + v

/-! ## Correlation (src/indicators/correlation.rs) -/

structure Correlation where
  period : ℕ
  index : ℕ
  count : ℕ
  sum_x : ℚ
  sum_y : ℚ
  sum_xy : ℚ
  sum_x2 : ℚ
  sum_y2 : ℚ
  values_x : List ℚ
  values_y : List ℚ
deriving DecidableEq

/-- The record built by `Correlation::new` on the `Ok` path
(`vec![0.0; period]` becomes `List.replicate period 0`). -/
def Correlation.init (period : ℕ) : Correlation where
  period := period
  index := 0
  count := 0
  sum_x := 0
  sum_y := 0
  sum_xy := 0
  sum_x2 := 0
  sum_y2 := 0
  values_x := List.replicate period 0
  values_y := List.replicate period 0

/-- `Correlation::new` (correlation.rs lines 54-70). -/
def Correlation.new (period : ℕ) : Except TaError Correlation :=
  match period with
  | 0 => .error .InvalidParameter
  | _ => .ok (Correlation.init period)

/-- `numerator` of the output formula (correlation.rs line 126). -/
def Correlation.num (s : Correlation) : ℚ :=
  s.sum_xy - s.sum_x * s.sum_y / (s.count : ℚ)

/-- `denominator_x` (correlation.rs line 127). -/
def Correlation.denomX (s : Correlation) : ℚ :=
  s.sum_x2 - s.sum_x * s.sum_x / (s.count : ℚ)

/-- `denominator_y` (correlation.rs line 128). -/
def Correlation.denomY (s : Correlation) : ℚ :=
  s.sum_y2 - s.sum_y * s.sum_y / (s.count : ℚ)

/-- `denominator` (correlation.rs line 129). -/
def Correlation.denom (s : Correlation) : ℚ :=
  s.denomX * s.denomY

/-- The value returned by `Correlation::next` once the state has been
updated (correlation.rs lines 119-137). -/
noncomputable def Correlation.output (s : Correlation) : ℝ :=
  if s.count < 2 then 0
  else if s.denom ≤ 0 then 0
  else (s.num : ℝ) / Real.sqrt (s.denom : ℝ)

/-- The state transition of `Correlation::next` (correlation.rs lines
82-117): capture the trailing slot, overwrite it, bump the circular index,
then either extend or slide the five running sums. -/
def Correlation.step (s : Correlation) (input : ℚ × ℚ) : Correlation :=
  let input_x := input.1
  let input_y := input.2
  let trailing_x := s.values_x.getD s.index 0
  let trailing_y := s.values_y.getD s.index 0
  let vx := s.values_x.set s.index input_x
  let vy := s.values_y.set s.index input_y
  let index' := if s.index + 1 < s.period then s.index + 1 else 0
  if s.count < s.period then
    { s with
      values_x := vx, values_y := vy, index := index', count := s.count + 1,
      sum_x := s.sum_x + input_x,
      sum_y := s.sum_y + input_y,
      sum_xy := s.sum_xy + input_x * input_y,
      sum_x2 := s.sum_x2 + input_x * input_x,
      sum_y2 := s.sum_y2 + input_y * input_y }
  else
    { s with
      values_x := vx, values_y := vy, index := index',
      sum_x := s.sum_x - trailing_x + input_x,
      sum_y := s.sum_y - trailing_y + input_y,
      sum_xy := s.sum_xy - trailing_x * trailing_y + input_x * input_y,
      sum_x2 := s.sum_x2 - trailing_x * trailing_x + input_x * input_x,
      sum_y2 := s.sum_y2 - trailing_y * trailing_y + input_y * input_y }

/-- `Correlation::next`: state transition plus returned value. -/
noncomputable def Correlation.next (s : Correlation) (input : ℚ × ℚ) :
    Correlation × ℝ :=
  let s' := s.step input
  (s', s'.output)

/-- `Correlation::reset` (correlation.rs lines 140-155); the
`for i in 0..period` loop is the fold zeroing each slot. -/
def Correlation.reset (s : Correlation) : Correlation :=
  { s with
    index := 0, count := 0,
    sum_x := 0, sum_y := 0, sum_xy := 0, sum_x2 := 0, sum_y2 := 0,
    values_x := (List.range s.period).foldl (fun a i => a.set i 0) s.values_x,
    values_y := (List.range s.period).foldl (fun a i => a.set i 0) s.values_y }

/-- Feeding a list of pairs one `next` call at a time, collecting outputs. -/
noncomputable def Correlation.run : Correlation → List (ℚ × ℚ) → Correlation × List ℝ
  | s, [] => (s, [])
  | s, a :: l =>
    let t := s.next a
    let r := Correlation.run t.1 l
    (r.1, t.2 :: r.2)

/-- Just the state evolution of `Correlation.run`. -/
def Correlation.runState (s : Correlation) (l : List (ℚ × ℚ)) : Correlation :=
  l.foldl Correlation.step s

/-! ### IEEE-754 binary64 model of `Correlation::next`

The exact-rational model above interprets every `f64` operation as exact
arithmetic.  For the bit-exact regression vector quoted by the spec the
rounding of every intermediate `f64` operation matters, so the functions
below model IEEE-754 binary64 arithmetic (round-to-nearest, ties-to-even;
normal range, which covers every value arising here) directly.  A finite
double is a pair `(m, k) : FP64` denoting `m * 2 ^ k`, kept normalized:
`m = 0` or `2 ^ 52 <= |m| < 2 ^ 53`.  All recursions use explicit fuel so
that the kernel can evaluate them. -/

/-- A binary64 value: mantissa and exponent, denoting `m * 2 ^ k`. -/
abbrev FP64 := ℤ × ℤ

/-- 2^52, the smallest normalized binary64 mantissa magnitude. -/
def two52n : ℕ := 4503599627370496

/-- 2^53, one past the largest binary64 mantissa magnitude. -/
def two53n : ℕ := 9007199254740992

/-- Double a (nonzero) magnitude until it reaches `[2^52, 2^53)`;
this is exact, no information is lost. -/
def scaleUp : ℕ → ℕ → ℤ → ℕ × ℤ
  | 0, M, k => (M, k)
  | fuel + 1, M, k => if M < two52n then scaleUp fuel (M * 2) (k - 1) else (M, k)

/-- Number of excess low bits of a magnitude `>= 2^53`. -/
def excessBits : ℕ → ℕ → ℕ → ℕ
  | 0, _, s => s
  | fuel + 1, M, s => if two53n ≤ M / 2 ^ s then excessBits fuel M (s + 1) else s

/-- Round the exact value `M * 2 ^ k` (with `M > 0`; `sticky` records a
strictly smaller discarded tail) to a normalized mantissa/exponent pair,
round-to-nearest, ties-to-even. -/
def roundMag (M : ℕ) (k : ℤ) (sticky : Bool) : ℕ × ℤ :=
  if M < two52n then scaleUp 1200 M k
  else
    let s := excessBits 1200 M 0
    if s = 0 then (M, k)
    else
      let q := M / 2 ^ s
      let r := M % 2 ^ s
      let h := 2 ^ (s - 1)
      let q2 :=
        if r < h then q
        else if h < r then q + 1
        else if sticky then q + 1
        else if q % 2 = 0 then q else q + 1
      if q2 = two53n then (two52n, k + (s : ℤ) + 1) else (q2, k + (s : ℤ))

/-- Build a binary64 value from sign, magnitude, exponent and sticky tail. -/
def mkFP (sign : Bool) (M : ℕ) (k : ℤ) (sticky : Bool) : FP64 :=
  if M = 0 then (0, 0)
  else
    let mk := roundMag M k sticky
    (if sign then -(mk.1 : ℤ) else (mk.1 : ℤ), mk.2)

/-- binary64 addition: align exponents exactly, then round once. -/
def fadd (a b : FP64) : FP64 :=
  if a.1 = 0 then b
  else if b.1 = 0 then a
  else
    let k : ℤ := min a.2 b.2
    let M : ℤ := a.1 * 2 ^ (a.2 - k).toNat + b.1 * 2 ^ (b.2 - k).toNat
    mkFP (M < 0) M.natAbs k false

/-- binary64 negation (exact). -/
def fneg (a : FP64) : FP64 := (-a.1, a.2)

/-- binary64 subtraction. -/
def fsub (a b : FP64) : FP64 := fadd a (fneg b)

/-- binary64 multiplication: exact integer product, then round once. -/
def fmul (a b : FP64) : FP64 :=
  let M := a.1 * b.1
  mkFP (M < 0) M.natAbs (a.2 + b.2) false

/-- binary64 division: 57 guard bits plus a sticky remainder give the
correctly rounded quotient.  (The zero-divisor case never arises on the
paths exercised here.) -/
def fquot (a b : FP64) : FP64 :=
  if b.1 = 0 then (0, 0)
  else if a.1 = 0 then (0, 0)
  else
    let N := a.1.natAbs * 2 ^ 57
    let D := b.1.natAbs
    let q0 := N / D
    let r := N % D
    mkFP (xor (decide (a.1 < 0)) (decide (b.1 < 0))) q0 (a.2 - b.2 - 57) (decide (r ≠ 0))

/-- Newton iteration for the integer square root, with fuel. -/
def isqrtAux : ℕ → ℕ → ℕ → ℕ
  | 0, _, g => g
  | fuel + 1, n, g =>
    let g2 := (g + n / g) / 2
    if g2 < g then isqrtAux fuel n g2 else g

/-- Integer (floor) square root. -/
def isqrt (n : ℕ) : ℕ := if n ≤ 1 then n else isqrtAux 300 n (n / 2)

/-- Correctly rounded binary64 square root: scale the input into
`[2^104, 2^106)` (exactly, by powers of four), take the integer square
root, and decide the rounding direction against the squared midpoint;
a tie is impossible there. -/
def fpSqrt (a : FP64) : FP64 :=
  if a.1 ≤ 0 then (0, 0)
  else
    let m := a.1.toNat
    let keven := a.2 % 2 = 0
    let r0 : ℕ := if keven then m * 4 ^ 26 else 2 * m * 4 ^ 26
    let e : ℤ := (if keven then a.2 / 2 else (a.2 - 1) / 2) - 26
    let n := isqrt r0
    let n2 := if r0 ≤ n * n + n then n else n + 1
    if n2 = two53n then ((two52n : ℤ), e + 1) else ((n2 : ℤ), e)

/-- The binary64 value of a small integer (exact for `|i| < 2^53`). -/
def intToFP (i : ℤ) : FP64 := mkFP (i < 0) i.natAbs 0 false

/-- `2 ^ k` for an integer exponent, as a rational. -/
def pow2 (k : ℤ) : ℚ :=
  if 0 ≤ k then ((2 ^ k.toNat : ℕ) : ℚ) else ((2 ^ (-k).toNat : ℕ) : ℚ)⁻¹

/-- The rational value denoted by a binary64 pair. -/
def FP64.toRat (x : FP64) : ℚ := (x.1 : ℚ) * pow2 x.2

/-- The `Correlation` state under binary64 arithmetic. -/
structure CorrelationF where
  period : ℕ
  index : ℕ
  count : ℕ
  sum_x : FP64
  sum_y : FP64
  sum_xy : FP64
  sum_x2 : FP64
  sum_y2 : FP64
  values_x : List FP64
  values_y : List FP64
deriving DecidableEq

/-- `Correlation::new`, binary64 state (`0.0` is `(0, 0)`). -/
def CorrelationF.init (period : ℕ) : CorrelationF where
  period := period
  index := 0
  count := 0
  sum_x := (0, 0)
  sum_y := (0, 0)
  sum_xy := (0, 0)
  sum_x2 := (0, 0)
  sum_y2 := (0, 0)
  values_x := List.replicate period (0, 0)
  values_y := List.replicate period (0, 0)

/-- The state transition of `Correlation::next` under binary64 arithmetic:
the same statement-for-statement transition as `Correlation.step`, with
every `f64` operation rounded. -/
def CorrelationF.stepF (s : CorrelationF) (input : FP64 × FP64) : CorrelationF :=
  let input_x := input.1
  let input_y := input.2
  let trailing_x := s.values_x.getD s.index (0, 0)
  let trailing_y := s.values_y.getD s.index (0, 0)
  let vx := s.values_x.set s.index input_x
  let vy := s.values_y.set s.index input_y
  let index' := if s.index + 1 < s.period then s.index + 1 else 0
  if s.count < s.period then
    { s with
      values_x := vx, values_y := vy, index := index', count := s.count + 1,
      sum_x := fadd s.sum_x input_x,
      sum_y := fadd s.sum_y input_y,
      sum_xy := fadd s.sum_xy (fmul input_x input_y),
      sum_x2 := fadd s.sum_x2 (fmul input_x input_x),
      sum_y2 := fadd s.sum_y2 (fmul input_y input_y) }
  else
    { s with
      values_x := vx, values_y := vy, index := index',
      sum_x := fadd (fsub s.sum_x trailing_x) input_x,
      sum_y := fadd (fsub s.sum_y trailing_y) input_y,
      sum_xy := fadd (fsub s.sum_xy (fmul trailing_x trailing_y)) (fmul input_x input_y),
      sum_x2 := fadd (fsub s.sum_x2 (fmul trailing_x trailing_x)) (fmul input_x input_x),
      sum_y2 := fadd (fsub s.sum_y2 (fmul trailing_y trailing_y)) (fmul input_y input_y) }

/-- The value returned by `Correlation::next` under binary64 arithmetic
(correlation.rs lines 119-137). -/
def CorrelationF.outputF (s : CorrelationF) : FP64 :=
  if s.count < 2 then (0, 0)
  else
    let n := intToFP (s.count : ℤ)
    let numerator := fsub s.sum_xy (fquot (fmul s.sum_x s.sum_y) n)
    let denominator_x := fsub s.sum_x2 (fquot (fmul s.sum_x s.sum_x) n)
    let denominator_y := fsub s.sum_y2 (fquot (fmul s.sum_y s.sum_y) n)
    let denominator := fmul denominator_x denominator_y
    if denominator.1 ≤ 0 then (0, 0)
    else fquot numerator (fpSqrt denominator)

/-- Feeding a list of pairs through the binary64 model. -/
def CorrelationF.runF : CorrelationF → List (FP64 × FP64) → CorrelationF × List FP64
  | s, [] => (s, [])
  | s, a :: l =>
    let t := s.stepF a
    let r := CorrelationF.runF t l
    (r.1, t.outputF :: r.2)

/-! ## RSI (src/indicators/relative_strength_index.rs) -/

structure RelativeStrengthIndex where
  period : ℕ
  prev_val : ℚ
  is_new : Bool
  price_changes : List (ℚ × ℚ)
  avg_gain : ℚ
  avg_loss : ℚ
deriving DecidableEq

/-- The record built by `RelativeStrengthIndex::new` on the `Ok` path. -/
def RelativeStrengthIndex.init (period : ℕ) : RelativeStrengthIndex where
  period := period
  prev_val := 0
  is_new := true
  price_changes := []
  avg_gain := 0
  avg_loss := 0

/-- `RelativeStrengthIndex::new` (relative_strength_index.rs lines 82-95). -/
def RelativeStrengthIndex.new (period : ℕ) : Except TaError RelativeStrengthIndex :=
  match period with
  | 0 => .error .InvalidParameter
  | _ => .ok (RelativeStrengthIndex.init period)

/-- `Next::next for RelativeStrengthIndex` (relative_strength_index.rs
lines 107-169).  The deque is a list with its front at the head; the
`while len > period` pop loop is `List.drop (len - period)`; the summing
`for` loop of the seed phase is `map`/`sum`. -/
def RelativeStrengthIndex.next (s : RelativeStrengthIndex) (input : ℚ) :
    RelativeStrengthIndex × Option ℚ :=
  if s.is_new then
    ({ s with is_new := false, prev_val := input }, none)
  else
    let change := input - s.prev_val
    let gl : ℚ × ℚ := if 0 ≤ change then (change, 0) else (0, -change)
    let q1 := s.price_changes ++ [gl]
    if q1.length < s.period then
      ({ s with prev_val := input, price_changes := q1 }, none)
    else
      let q2 := q1.drop (q1.length - s.period)
      let ag_al : ℚ × ℚ :=
        if q2.length = s.period ∧ s.avg_gain = 0 ∧ s.avg_loss = 0 then
          (((q2.map Prod.fst).sum) / (s.period : ℚ),
           ((q2.map Prod.snd).sum) / (s.period : ℚ))
        else
          ((s.avg_gain * ((s.period : ℚ) - 1) + gl.1) / (s.period : ℚ),
           (s.avg_loss * ((s.period : ℚ) - 1) + gl.2) / (s.period : ℚ))
      let out : ℚ :=
        if ag_al.2 = 0 then (if ag_al.1 = 0 then 50 else 100)
        else 100 - 100 / (1 + ag_al.1 / ag_al.2)
      ({ s with prev_val := input, price_changes := q2,
                avg_gain := ag_al.1, avg_loss := ag_al.2 }, some out)

/-- `Reset::reset for RelativeStrengthIndex` (lines 180-188). -/
def RelativeStrengthIndex.reset (s : RelativeStrengthIndex) : RelativeStrengthIndex :=
  { s with is_new := true, prev_val := 0, price_changes := [],
           avg_gain := 0, avg_loss := 0 }

/-- Feeding a list of scalars one `next` call at a time. -/
def RelativeStrengthIndex.run :
    RelativeStrengthIndex → List ℚ → RelativeStrengthIndex × List (Option ℚ)
  | s, [] => (s, [])
  | s, a :: l =>
    let t := s.next a
    let r := RelativeStrengthIndex.run t.1 l
    (r.1, t.2 :: r.2)

/-! ## ADX (src/indicators/average_directional_index.rs) -/

structure AverageDirectionalIndex where
  period : ℕ
  prev_high : Option ℚ
  prev_low : Option ℚ
  prev_close : Option ℚ
  prev_plus_dm : ℚ
  prev_minus_dm : ℚ
  prev_tr : ℚ
  prev_adx : ℚ
  dx_values : List ℚ
  dx_count : ℕ
  is_init : Bool
  unstable_period : ℕ
  unstable_period_count : ℕ
  round_pos : Bool
deriving DecidableEq

/-- `DEFAULT_UNSTABLE_PERIOD` (average_directional_index.rs line 8). -/
def defaultUnstablePeriod : ℕ := 15

/-- The record built by `AverageDirectionalIndex::new` on the `Ok` path
(lines 82-97).  The source field `is_initialized` is named `is_init`
here. -/
def AverageDirectionalIndex.init (period : ℕ) : AverageDirectionalIndex where
  period := period
  prev_high := none
  prev_low := none
  prev_close := none
  prev_plus_dm := 0
  prev_minus_dm := 0
  prev_tr := 0
  prev_adx := 0
  dx_values := []
  dx_count := 0
  is_init := false
  unstable_period := defaultUnstablePeriod
  unstable_period_count := 0
  round_pos := false

/-- `AverageDirectionalIndex::new` (lines 79-99). -/
def AverageDirectionalIndex.new (period : ℕ) : Except TaError AverageDirectionalIndex :=
  match period with
  | 0 => .error .InvalidParameter
  | 1 => .error .InvalidParameter
  | _ => .ok (AverageDirectionalIndex.init period)

/-- `AverageDirectionalIndex::with_rounding` (lines 109-112). -/
def AverageDirectionalIndex.with_rounding (s : AverageDirectionalIndex) :
    AverageDirectionalIndex :=
  { s with round_pos := true }

/-- `round_pos` helper (lines 128-134). -/
def AverageDirectionalIndex.roundP (s : AverageDirectionalIndex) (x : ℚ) : ℚ :=
  if s.round_pos then fround x else x

/-- `calculate_tr` helper (lines 115-125). -/
def AverageDirectionalIndex.calculate_tr (s : AverageDirectionalIndex)
    (high low : ℚ) : ℚ :=
  match s.prev_close with
  | some prev_close => max (max (high - low) |high - prev_close|) |low - prev_close|
  | none => high - low

/-- The directional-movement rule (lines 166-182). -/
def dmRule (diffP diffM : ℚ) : ℚ × ℚ :=
  if 0 < diffM ∧ diffP < diffM then (0, diffM)
  else if 0 < diffP ∧ diffM < diffP then (diffP, 0)
  else (0, 0)

/-- The `+DI`/`-DI` computation repeated at lines 216-226, 250-260 and
285-295 of the source. -/
def AverageDirectionalIndex.diOf (s : AverageDirectionalIndex) (dm tr : ℚ) : ℚ :=
  if 0 < tr then s.roundP (100 * (dm / tr)) else 0

/-- The `DX` computation repeated at lines 228-236, 262-269 and 297-304 of
the source. -/
def AverageDirectionalIndex.dxOf (s : AverageDirectionalIndex)
    (pdm mdm tr : ℚ) : ℚ :=
  let plus_di := s.diOf pdm tr
  let minus_di := s.diOf mdm tr
  let di_diff := |plus_di - minus_di|
  let di_sum := plus_di + minus_di
  if 0 < di_sum then s.roundP (100 * (di_diff / di_sum)) else 0

/-- `Next::next for AverageDirectionalIndex` (lines 146-329).  The
`unwrap` on `prev_low` is modelled by `Option.getD` (it is only reached
when `prev_high` - and with it `prev_low` - is set). -/
def AverageDirectionalIndex.next (s : AverageDirectionalIndex) (b : Bar) :
    AverageDirectionalIndex × Option ℚ :=
  let high := b.high
  let low := b.low
  let close := b.close
  match s.prev_high with
  | none =>
    ({ s with prev_high := some high, prev_low := some low, prev_close := some close },
     some 0)
  | some prev_high =>
    let prev_low := s.prev_low.getD 0
    let diffP := high - prev_high
    let diffM := prev_low - low
    let dm := dmRule diffP diffM
    let tr := s.calculate_tr high low
    if s.is_init = false then
      let s1 := { s with
        prev_plus_dm := s.prev_plus_dm + dm.1,
        prev_minus_dm := s.prev_minus_dm + dm.2,
        prev_tr := s.prev_tr + tr,
        dx_count := s.dx_count + 1 }
      let s2 := if s1.dx_count = s.period - 1
        then { s1 with is_init := true, dx_count := 0 } else s1
      ({ s2 with prev_high := some high, prev_low := some low, prev_close := some close },
       some 0)
    else
      let s3 :=
        if s.dx_values.isEmpty then
          let pdm1 := s.prev_plus_dm + dm.1
          let mdm1 := s.prev_minus_dm + dm.2
          let tr1 := s.prev_tr + tr
          let dx := s.dxOf pdm1 mdm1 tr1
          { s with
            dx_values := s.dx_values ++ [dx],
            prev_plus_dm := wilderStep s.period pdm1 dm.1,
            prev_minus_dm := wilderStep s.period mdm1 dm.2,
            prev_tr := wilderStep s.period tr1 tr }
        else if s.dx_values.length < s.period then
          let pdm1 := wilderStep s.period s.prev_plus_dm dm.1
          let mdm1 := wilderStep s.period s.prev_minus_dm dm.2
          let tr1 := wilderStep s.period s.prev_tr tr
          let dx := s.dxOf pdm1 mdm1 tr1
          let su := { s with
            prev_plus_dm := pdm1, prev_minus_dm := mdm1, prev_tr := tr1,
            dx_values := s.dx_values ++ [dx] }
          if su.dx_values.length = s.period then
            { su with
              prev_adx := s.roundP (su.dx_values.sum / (s.period : ℚ)),
              unstable_period_count := 0 }
          else su
        else
          let pdm1 := wilderStep s.period s.prev_plus_dm dm.1
          let mdm1 := wilderStep s.period s.prev_minus_dm dm.2
          let tr1 := wilderStep s.period s.prev_tr tr
          let dx := s.dxOf pdm1 mdm1 tr1
          { s with
            prev_plus_dm := pdm1, prev_minus_dm := mdm1, prev_tr := tr1,
            prev_adx := s.roundP ((s.prev_adx * ((s.period : ℚ) - 1) + dx) / (s.period : ℚ)),
            unstable_period_count :=
              if s.unstable_period_count < s.unstable_period
              then s.unstable_period_count + 1 else s.unstable_period_count }
      let s4 := { s3 with
        prev_high := some high, prev_low := some low, prev_close := some close }
      (s4, if s4.dx_values.length < s.period then none else some s4.prev_adx)

/-- `Reset::reset for AverageDirectionalIndex` (lines 332-346): everything
except `period`, `unstable_period` and `round_pos` goes back to its
construction value. -/
def AverageDirectionalIndex.reset (s : AverageDirectionalIndex) :
    AverageDirectionalIndex :=
  { s with
    prev_high := none, prev_low := none, prev_close := none,
    prev_plus_dm := 0, prev_minus_dm := 0, prev_tr := 0, prev_adx := 0,
    dx_values := [], dx_count := 0, is_init := false,
    unstable_period_count := 0 }

/-- Feeding a list of bars one `next` call at a time. -/
def AverageDirectionalIndex.run :
    AverageDirectionalIndex → List Bar → AverageDirectionalIndex × List (Option ℚ)
  | s, [] => (s, [])
  | s, b :: l =>
    let t := s.next b
    let r := AverageDirectionalIndex.run t.1 l
    (r.1, t.2 :: r.2)

/-! ## Helper lemmas -/

/-- The `for i in 0..p` zeroing loop of `Correlation::reset`, on a buffer
of length `p`, produces the all-zero buffer of `Correlation::new`. -/
theorem foldl_set_zero {l : List ℚ} {p : ℕ} (h : l.length = p) :
    (List.range p).foldl (fun a i => a.set i 0) l = List.replicate p 0 := by
  have len : ∀ q : ℕ, ((List.range q).foldl (fun a i => a.set i 0) l).length = l.length := by
    intro q
    induction q with
    | zero => simp
    | succ q ih => simp [List.range_succ, List.foldl_append, List.length_set, ih]
  have z : ∀ q : ℕ, ∀ i : ℕ,
      ((List.range q).foldl (fun a i => a.set i 0) l)[i]? =
        (if i < q then if i < l.length then some 0 else none else l[i]?) := by
    intro q
    induction q with
    | zero => intro i; simp
    | succ q ih =>
      intro i
      rw [List.range_succ, List.foldl_append]
      simp only [List.foldl_cons, List.foldl_nil]
      rw [List.getElem?_set, len q, ih i]
      rcases Nat.lt_trichotomy i q with hlt | heq | hgt
      · simp [hlt, Nat.ne_of_gt hlt, Nat.lt_succ_of_lt hlt]
      · subst heq
        by_cases hil : i < l.length <;> simp [hil, Nat.lt_irrefl, Nat.lt_succ_self]
      · have h1 : ¬ i < q := by omega
        have h2 : ¬ i < q + 1 := by omega
        have h3 : q ≠ i := by omega
        simp [h1, h2, h3]
  apply List.ext_getElem?
  intro i
  rw [z p i, h]
  by_cases hip : i < p
  · simp [hip, List.getElem?_replicate]
  · have : (List.replicate p (0 : ℚ))[i]? = none := by
      rw [List.getElem?_eq_none_iff]
      simpa using by omega
    rw [this]
    have : l[i]? = none := by
      rw [List.getElem?_eq_none_iff]
      omega
    simp [hip, this]

/-! ## C7: construction errors -/

/-- C7: construction fails with `InvalidParameter` exactly for the periods
outside the allowed range (`0` or `1` for ADX, `0` for Correlation and
RSI) and otherwise succeeds with the ready initial record; `next`, `reset`
and `period` are total functions of the embedding, so no operation can
fail after construction. -/
theorem new_invalid_parameter_iff (p : ℕ) :
    AverageDirectionalIndex.new p =
      (if p < 2 then Except.error TaError.InvalidParameter
       else Except.ok (AverageDirectionalIndex.init p)) ∧
    Correlation.new p =
      (if p = 0 then Except.error TaError.InvalidParameter
       else Except.ok (Correlation.init p)) ∧
    RelativeStrengthIndex.new p =
      (if p = 0 then Except.error TaError.InvalidParameter
       else Except.ok (RelativeStrengthIndex.init p)) := by
  refine ⟨?_, ?_, ?_⟩ <;> rcases p with _ | _ | n
  · rfl
  · rfl
  · rw [if_neg (by omega)]; rfl
  · rfl
  · rw [if_neg (by omega)]; rfl
  · rw [if_neg (by omega)]; rfl
  · rfl
  · rw [if_neg (by omega)]; rfl
  · rw [if_neg (by omega)]; rfl

/-! ## C10: reset leaves the rounding toggle (and the other constants) alone -/

/-- C10: `reset` restores every mutable field to its construction value
while leaving `period`, the `unstable_period` limit and the `round_pos`
toggle untouched; in particular an instance built `with_rounding` still
has rounding enabled after `reset`. -/
theorem reset_keeps_round_pos (s : AverageDirectionalIndex) (p : ℕ) :
    s.reset = { AverageDirectionalIndex.init s.period with
                  round_pos := s.round_pos,
                  unstable_period := s.unstable_period } ∧
    ((AverageDirectionalIndex.init p).with_rounding).reset.round_pos = true := by
  exact ⟨rfl, rfl⟩

/-! ## C1: reset is indistinguishable from fresh construction -/

/-- C1: for any ADX (with either rounding setting), RSI or Correlation
instance, `reset` rebuilds exactly the state a freshly constructed
instance of the same indicator has, and therefore feeding any input
sequence afterwards produces the same states and the same outputs.  The
two structural hypotheses record construction invariants that every
actually constructed instance satisfies: `unstable_period` is set to the
constant 15 once and never written again, and the two circular buffers
are allocated with length `period` once and never resized. -/
theorem reset_eq_fresh
    (a : AverageDirectionalIndex) (r : RelativeStrengthIndex) (c : Correlation)
    (bars : List Bar) (xs : List ℚ) (ps : List (ℚ × ℚ))
    (ha : a.unstable_period = defaultUnstablePeriod)
    (hx : c.values_x.length = c.period) (hy : c.values_y.length = c.period) :
    a.reset = (if a.round_pos
               then (AverageDirectionalIndex.init a.period).with_rounding
               else AverageDirectionalIndex.init a.period) ∧
    a.reset.run bars = (if a.round_pos
               then (AverageDirectionalIndex.init a.period).with_rounding
               else AverageDirectionalIndex.init a.period).run bars ∧
    r.reset = RelativeStrengthIndex.init r.period ∧
    r.reset.run xs = (RelativeStrengthIndex.init r.period).run xs ∧
    c.reset = Correlation.init c.period ∧
    c.reset.run ps = (Correlation.init c.period).run ps := by
  have hadx : a.reset = (if a.round_pos
      then (AverageDirectionalIndex.init a.period).with_rounding
      else AverageDirectionalIndex.init a.period) := by
    rcases a with ⟨ap, ph, pl, pc, pdm, mdm, tr, adx, dxv, dxc, ii, up, upc, rp⟩
    simp only [defaultUnstablePeriod] at ha
    subst ha
    cases rp
    · rfl
    · rfl
  have hrsi : r.reset = RelativeStrengthIndex.init r.period := rfl
  have hcorr : c.reset = Correlation.init c.period := by
    rcases c with ⟨cp, ci, cc, sx, sy, sxy, sx2, sy2, vx, vy⟩
    simp only at hx hy
    simp only [Correlation.reset, Correlation.init, Correlation.mk.injEq, and_true, true_and]
    exact ⟨foldl_set_zero hx, foldl_set_zero hy⟩
  exact ⟨hadx, by rw [hadx], hrsi, by rw [hrsi], hcorr, by rw [hcorr]⟩

/-- A mid-stream ADX state built with rounding enabled (reachable: the
construction invariant fields hold their constructed values). -/
def sampleAdx : AverageDirectionalIndex :=
  ⟨3, some 1, some 0, some 1, 2, 3, 4, 50, [10, 20], 0, true, 15, 2, true⟩

/-- A mid-stream RSI state. -/
def sampleRsi : RelativeStrengthIndex := ⟨2, 5, false, [(1, 0)], 1, 0⟩

/-- A mid-stream Correlation state with buffers of length `period`. -/
def sampleCorr : Correlation := ⟨2, 1, 2, 3, 4, 5, 6, 7, [1, 2], [3, 4]⟩

/-- Witness for C1 at concrete mid-stream states and inputs. -/
theorem reset_eq_fresh_witness :
    sampleAdx.reset = (if sampleAdx.round_pos
        then (AverageDirectionalIndex.init sampleAdx.period).with_rounding
        else AverageDirectionalIndex.init sampleAdx.period) ∧
    sampleAdx.reset.run [⟨2, 0, 1⟩] = (if sampleAdx.round_pos
        then (AverageDirectionalIndex.init sampleAdx.period).with_rounding
        else AverageDirectionalIndex.init sampleAdx.period).run [⟨2, 0, 1⟩] ∧
    sampleRsi.reset = RelativeStrengthIndex.init sampleRsi.period ∧
    sampleRsi.reset.run [5] = (RelativeStrengthIndex.init sampleRsi.period).run [5] ∧
    sampleCorr.reset = Correlation.init sampleCorr.period ∧
    sampleCorr.reset.run [(1, 2)] = (Correlation.init sampleCorr.period).run [(1, 2)] :=
  reset_eq_fresh sampleAdx sampleRsi sampleCorr [⟨2, 0, 1⟩] [5] [(1, 2)] rfl rfl rfl

/-! ## Phase unfolding lemmas for `AverageDirectionalIndex.next` -/

/-- First call ever (or first after reset): record the bar, emit `0.0`. -/
theorem AverageDirectionalIndex.next_uninit (s : AverageDirectionalIndex) (b : Bar)
    (h : s.prev_high = none) :
    s.next b = ({ s with prev_high := some b.high, prev_low := some b.low,
                         prev_close := some b.close }, some 0) := by
  rcases s with ⟨ap, ph0, pl0, pc0, pdm, mdm, tr0, adx0, dxv, dxc, ii, up, upc, rp⟩
  simp only at h
  subst h
  rfl

/-- Accumulation phase, counter still below `period - 1`: raw sums grow
and `0.0` is emitted. -/
theorem AverageDirectionalIndex.next_accum_go (s : AverageDirectionalIndex) (b : Bar)
    (ph : ℚ) (hph : s.prev_high = some ph) (hii : s.is_init = false)
    (hc : ¬ s.dx_count + 1 = s.period - 1) :
    s.next b =
      ({ s with
          prev_plus_dm := s.prev_plus_dm + (dmRule (b.high - ph) (s.prev_low.getD 0 - b.low)).1,
          prev_minus_dm := s.prev_minus_dm + (dmRule (b.high - ph) (s.prev_low.getD 0 - b.low)).2,
          prev_tr := s.prev_tr + s.calculate_tr b.high b.low,
          dx_count := s.dx_count + 1,
          prev_high := some b.high, prev_low := some b.low, prev_close := some b.close },
       some 0) := by
  rcases s with ⟨ap, ph0, pl0, pc0, pdm, mdm, tr0, adx0, dxv, dxc, ii, up, upc, rp⟩
  simp only at hph hii hc
  subst hph
  subst hii
  simp [AverageDirectionalIndex.next, if_neg hc]

/-- Accumulation phase, counter hits `period - 1`: the phase flag flips,
the tick counter resets, `0.0` is emitted. -/
theorem AverageDirectionalIndex.next_accum_flip (s : AverageDirectionalIndex) (b : Bar)
    (ph : ℚ) (hph : s.prev_high = some ph) (hii : s.is_init = false)
    (hc : s.dx_count + 1 = s.period - 1) :
    s.next b =
      ({ s with
          prev_plus_dm := s.prev_plus_dm + (dmRule (b.high - ph) (s.prev_low.getD 0 - b.low)).1,
          prev_minus_dm := s.prev_minus_dm + (dmRule (b.high - ph) (s.prev_low.getD 0 - b.low)).2,
          prev_tr := s.prev_tr + s.calculate_tr b.high b.low,
          dx_count := 0, is_init := true,
          prev_high := some b.high, prev_low := some b.low, prev_close := some b.close },
       some 0) := by
  rcases s with ⟨ap, ph0, pl0, pc0, pdm, mdm, tr0, adx0, dxv, dxc, ii, up, upc, rp⟩
  simp only at hph hii hc
  subst hph
  subst hii
  simp [AverageDirectionalIndex.next, if_pos hc]

/-- First smoothing tick (initialized, empty DX history): the raw values
are added once more, the first DX value is pushed, the Wilder recurrence
starts, and the output is `NaN` unless one DX entry already fills the
history. -/
theorem AverageDirectionalIndex.next_first_smooth (s : AverageDirectionalIndex) (b : Bar)
    (ph : ℚ) (hph : s.prev_high = some ph) (hii : s.is_init = true)
    (hempty : s.dx_values = []) :
    s.next b =
      (let dm := dmRule (b.high - ph) (s.prev_low.getD 0 - b.low)
       let tr := s.calculate_tr b.high b.low
       let dx := s.dxOf (s.prev_plus_dm + dm.1) (s.prev_minus_dm + dm.2) (s.prev_tr + tr)
       ({ s with
          dx_values := [dx],
          prev_plus_dm := wilderStep s.period (s.prev_plus_dm + dm.1) dm.1,
          prev_minus_dm := wilderStep s.period (s.prev_minus_dm + dm.2) dm.2,
          prev_tr := wilderStep s.period (s.prev_tr + tr) tr,
          prev_high := some b.high, prev_low := some b.low, prev_close := some b.close },
        if 1 < s.period then none else some s.prev_adx)) := by
  rcases s with ⟨ap, ph0, pl0, pc0, pdm, mdm, tr0, adx0, dxv, dxc, ii, up, upc, rp⟩
  simp only at hph hii hempty
  subst hph
  subst hii
  subst hempty
  simp [AverageDirectionalIndex.next]

/-- DX-history growth tick that does not yet fill the history: Wilder
recurrence, DX pushed, `NaN` emitted. -/
theorem AverageDirectionalIndex.next_grow_mid (s : AverageDirectionalIndex) (b : Bar)
    (ph : ℚ) (hph : s.prev_high = some ph) (hii : s.is_init = true)
    (hne : s.dx_values ≠ []) (hlt : s.dx_values.length + 1 < s.period) :
    s.next b =
      (let dm := dmRule (b.high - ph) (s.prev_low.getD 0 - b.low)
       let tr := s.calculate_tr b.high b.low
       let pdm1 := wilderStep s.period s.prev_plus_dm dm.1
       let mdm1 := wilderStep s.period s.prev_minus_dm dm.2
       let tr1 := wilderStep s.period s.prev_tr tr
       let dx := s.dxOf pdm1 mdm1 tr1
       ({ s with
          prev_plus_dm := pdm1, prev_minus_dm := mdm1, prev_tr := tr1,
          dx_values := s.dx_values ++ [dx],
          prev_high := some b.high, prev_low := some b.low, prev_close := some b.close },
        none)) := by
  rcases s with ⟨ap, ph0, pl0, pc0, pdm, mdm, tr0, adx0, dxv, dxc, ii, up, upc, rp⟩
  simp only at hph hii hne hlt
  subst hph
  subst hii
  rcases dxv with _ | ⟨d0, dtl⟩
  · exact absurd rfl hne
  simp only [List.length_cons] at hlt
  simp [AverageDirectionalIndex.next, (by omega : dtl.length + 1 < ap),
        (by omega : dtl.length + 1 + 1 < ap)]
  split
  · exfalso; omega
  · simp
    omega

/-- DX-history growth tick that fills the history: Wilder recurrence, DX
pushed, ADX seeded as the mean of the buffered DX values, the unstable
counter reset, and the seeded ADX emitted. -/
theorem AverageDirectionalIndex.next_grow_seed (s : AverageDirectionalIndex) (b : Bar)
    (ph : ℚ) (hph : s.prev_high = some ph) (hii : s.is_init = true)
    (hne : s.dx_values ≠ []) (hfill : s.dx_values.length + 1 = s.period) :
    s.next b =
      (let dm := dmRule (b.high - ph) (s.prev_low.getD 0 - b.low)
       let tr := s.calculate_tr b.high b.low
       let pdm1 := wilderStep s.period s.prev_plus_dm dm.1
       let mdm1 := wilderStep s.period s.prev_minus_dm dm.2
       let tr1 := wilderStep s.period s.prev_tr tr
       let dx := s.dxOf pdm1 mdm1 tr1
       let adx1 := s.roundP ((s.dx_values ++ [dx]).sum / (s.period : ℚ))
       ({ s with
          prev_plus_dm := pdm1, prev_minus_dm := mdm1, prev_tr := tr1,
          dx_values := s.dx_values ++ [dx],
          prev_adx := adx1, unstable_period_count := 0,
          prev_high := some b.high, prev_low := some b.low, prev_close := some b.close },
        some adx1)) := by
  rcases s with ⟨ap, ph0, pl0, pc0, pdm, mdm, tr0, adx0, dxv, dxc, ii, up, upc, rp⟩
  simp only at hph hii hne hfill
  subst hph
  subst hii
  rcases dxv with _ | ⟨d0, dtl⟩
  · exact absurd rfl hne
  simp only [List.length_cons] at hfill
  simp [AverageDirectionalIndex.next, (by omega : dtl.length + 1 < ap),
        (by omega : dtl.length + 1 + 1 = ap), (by omega : ¬ dtl.length + 1 + 1 < ap)]

/-- Steady tick (DX history full): Wilder recurrence, ADX smoothed with the
new DX, unstable counter bumped while below its cap, new ADX emitted. -/
theorem AverageDirectionalIndex.next_steady (s : AverageDirectionalIndex) (b : Bar)
    (ph : ℚ) (hph : s.prev_high = some ph) (hii : s.is_init = true)
    (hne : s.dx_values ≠ []) (hge : ¬ s.dx_values.length < s.period) :
    s.next b =
      (let dm := dmRule (b.high - ph) (s.prev_low.getD 0 - b.low)
       let tr := s.calculate_tr b.high b.low
       let pdm1 := wilderStep s.period s.prev_plus_dm dm.1
       let mdm1 := wilderStep s.period s.prev_minus_dm dm.2
       let tr1 := wilderStep s.period s.prev_tr tr
       let dx := s.dxOf pdm1 mdm1 tr1
       let adx1 := s.roundP ((s.prev_adx * ((s.period : ℚ) - 1) + dx) / (s.period : ℚ))
       ({ s with
          prev_plus_dm := pdm1, prev_minus_dm := mdm1, prev_tr := tr1,
          prev_adx := adx1,
          unstable_period_count :=
            if s.unstable_period_count < s.unstable_period
            then s.unstable_period_count + 1 else s.unstable_period_count,
          prev_high := some b.high, prev_low := some b.low, prev_close := some b.close },
        some adx1)) := by
  rcases s with ⟨ap, ph0, pl0, pc0, pdm, mdm, tr0, adx0, dxv, dxc, ii, up, upc, rp⟩
  simp only at hph hii hne hge
  subst hph
  subst hii
  rcases dxv with _ | ⟨d0, dtl⟩
  · exact absurd rfl hne
  simp only [List.length_cons] at hge
  simp [AverageDirectionalIndex.next, (by omega : ¬ dtl.length + 1 < ap), hge]

/-! ## Phase unfolding lemmas for `RelativeStrengthIndex.next` -/

/-- Very first call: record the value, return `NaN`. -/
theorem RelativeStrengthIndex.next_first (t : RelativeStrengthIndex) (x : ℚ)
    (hnew : t.is_new = true) :
    t.next x = ({ t with is_new := false, prev_val := x }, none) := by
  rcases t with ⟨tp, pv, inew, pcs, ag, al⟩
  simp only at hnew
  subst hnew
  rfl

/-- Warm-up call: push the gain/loss pair, return `NaN`. -/
theorem RelativeStrengthIndex.next_warm (t : RelativeStrengthIndex) (x : ℚ)
    (hnew : t.is_new = false) (hlen : t.price_changes.length + 1 < t.period) :
    t.next x =
      (let gl : ℚ × ℚ :=
        if 0 ≤ x - t.prev_val then (x - t.prev_val, 0) else (0, -(x - t.prev_val))
       ({ t with prev_val := x, price_changes := t.price_changes ++ [gl] }, none)) := by
  rcases t with ⟨tp, pv, inew, pcs, ag, al⟩
  simp only at hnew hlen
  subst hnew
  simp [RelativeStrengthIndex.next, hlen]

/-- Simple-average seed call: the queue is full and both averages are still
zero, so both averages are seeded with plain means over the queue. -/
theorem RelativeStrengthIndex.next_seed (t : RelativeStrengthIndex) (x : ℚ)
    (hnew : t.is_new = false) (hlen : ¬ t.price_changes.length + 1 < t.period)
    (hp : 1 ≤ t.period) (hag : t.avg_gain = 0) (hal : t.avg_loss = 0) :
    t.next x =
      (let gl : ℚ × ℚ :=
        if 0 ≤ x - t.prev_val then (x - t.prev_val, 0) else (0, -(x - t.prev_val))
       let q2 := (t.price_changes ++ [gl]).drop (t.price_changes.length + 1 - t.period)
       let ag := (q2.map Prod.fst).sum / (t.period : ℚ)
       let al := (q2.map Prod.snd).sum / (t.period : ℚ)
       ({ t with prev_val := x, price_changes := q2, avg_gain := ag, avg_loss := al },
        some (if al = 0 then (if ag = 0 then 50 else 100)
              else 100 - 100 / (1 + ag / al)))) := by
  rcases t with ⟨tp, pv, inew, pcs, ag, al⟩
  simp only at hnew hlen hag hal
  subst hnew
  simp only at hp
  subst hag
  subst hal
  have harith : pcs.length + 1 - (pcs.length + 1 - tp) = tp := by omega
  simp [RelativeStrengthIndex.next, hlen, harith]

/-- Steady (Wilder smoothing) call: the queue is full and at least one
average is nonzero, so both averages are smoothed with the newest pair. -/
theorem RelativeStrengthIndex.next_smooth (t : RelativeStrengthIndex) (x : ℚ)
    (hnew : t.is_new = false) (hlen : ¬ t.price_changes.length + 1 < t.period)
    (hseed : ¬ (t.avg_gain = 0 ∧ t.avg_loss = 0)) :
    t.next x =
      (let gl : ℚ × ℚ :=
        if 0 ≤ x - t.prev_val then (x - t.prev_val, 0) else (0, -(x - t.prev_val))
       let q2 := (t.price_changes ++ [gl]).drop (t.price_changes.length + 1 - t.period)
       let ag := (t.avg_gain * ((t.period : ℚ) - 1) + gl.1) / (t.period : ℚ)
       let al := (t.avg_loss * ((t.period : ℚ) - 1) + gl.2) / (t.period : ℚ)
       ({ t with prev_val := x, price_changes := q2, avg_gain := ag, avg_loss := al },
        some (if al = 0 then (if ag = 0 then 50 else 100)
              else 100 - 100 / (1 + ag / al)))) := by
  rcases t with ⟨tp, pv, inew, pcs, ag, al⟩
  simp only at hnew hlen hseed
  subst hnew
  simp [RelativeStrengthIndex.next, hlen, hseed]

/-! ## C2: the Wilder accumulator recurrence -/

/-- In exact arithmetic, `(a*(p-1) + g)/p = a - a/p + g/p`. -/
theorem wilder_avg_eq (p : ℕ) (hp : 1 ≤ p) (a g : ℚ) :
    (a * ((p : ℚ) - 1) + g) / (p : ℚ) = a - a / (p : ℚ) + g / (p : ℚ) := by
  have h0 : (p : ℚ) ≠ 0 := Nat.cast_ne_zero.mpr (by omega)
  field_simp
  ring

/-- C2 (amended): on every ADX tick after the first smoothing tick, each
of the three smoothed sums is updated by exactly
`acc = acc - acc/period + newRawValue`; RSI's steady-phase averages are
instead updated by `avg = (avg*(period-1) + newValue)/period`, i.e.
`avg = avg - avg/period + newValue/period` - the new value enters divided
by the period, unlike in the ADX sums. -/
theorem wilder_recurrence_per_tick
    (s : AverageDirectionalIndex) (b : Bar) (ph : ℚ)
    (t : RelativeStrengthIndex) (x : ℚ)
    (hph : s.prev_high = some ph) (hii : s.is_init = true) (hne : s.dx_values ≠ [])
    (hnew : t.is_new = false) (hp : 1 ≤ t.period)
    (hlen : ¬ t.price_changes.length + 1 < t.period)
    (hseed : ¬ (t.avg_gain = 0 ∧ t.avg_loss = 0)) :
    ((s.next b).1.prev_plus_dm =
        wilderStep s.period s.prev_plus_dm (dmRule (b.high - ph) (s.prev_low.getD 0 - b.low)).1 ∧
     (s.next b).1.prev_minus_dm =
        wilderStep s.period s.prev_minus_dm (dmRule (b.high - ph) (s.prev_low.getD 0 - b.low)).2 ∧
     (s.next b).1.prev_tr = wilderStep s.period s.prev_tr (s.calculate_tr b.high b.low)) ∧
    ((t.next x).1.avg_gain =
        t.avg_gain - t.avg_gain / (t.period : ℚ) +
          (if 0 ≤ x - t.prev_val then x - t.prev_val else 0) / (t.period : ℚ) ∧
     (t.next x).1.avg_loss =
        t.avg_loss - t.avg_loss / (t.period : ℚ) +
          (if 0 ≤ x - t.prev_val then 0 else -(x - t.prev_val)) / (t.period : ℚ)) := by
  constructor
  · by_cases hfill : s.dx_values.length + 1 = s.period
    · rw [AverageDirectionalIndex.next_grow_seed s b ph hph hii hne hfill]
      exact ⟨by simp, by simp, by simp⟩
    · by_cases hlt : s.dx_values.length < s.period
      · rw [AverageDirectionalIndex.next_grow_mid s b ph hph hii hne (by omega)]
        exact ⟨by simp, by simp, by simp⟩
      · rw [AverageDirectionalIndex.next_steady s b ph hph hii hne hlt]
        exact ⟨by simp, by simp, by simp⟩
  · rw [RelativeStrengthIndex.next_smooth t x hnew hlen hseed]
    constructor
    · show (t.avg_gain * ((t.period : ℚ) - 1) + _) / (t.period : ℚ) = _
      rw [wilder_avg_eq t.period hp]
      by_cases hch : 0 ≤ x - t.prev_val <;> simp [hch]
    · show (t.avg_loss * ((t.period : ℚ) - 1) + _) / (t.period : ℚ) = _
      rw [wilder_avg_eq t.period hp]
      by_cases hch : 0 ≤ x - t.prev_val <;> simp [hch]

/-- Counterexample to C2 as literally stated: starting RSI(2) fresh and
feeding `0, 1, 2`, the steady-phase tick with input `3` has gain
`newValue = 1`, yet the average-gain update does not satisfy
`acc = acc - acc/period + newValue` (the code divides the new value by
the period as well). -/
theorem wilder_recurrence_per_tick_cex :
    ((RelativeStrengthIndex.run (RelativeStrengthIndex.init 2) [0, 1, 2]).1.next 3).1.avg_gain ≠
      wilderStep (RelativeStrengthIndex.run (RelativeStrengthIndex.init 2) [0, 1, 2]).1.period
        (RelativeStrengthIndex.run (RelativeStrengthIndex.init 2) [0, 1, 2]).1.avg_gain
        ((3 : ℚ) - (RelativeStrengthIndex.run (RelativeStrengthIndex.init 2) [0, 1, 2]).1.prev_val) := by
  have hS : (RelativeStrengthIndex.run (RelativeStrengthIndex.init 2) [0, 1, 2]).1 =
      ⟨2, 2, false, [(1, 0), (1, 0)], 1, 0⟩ := by
    norm_num [RelativeStrengthIndex.run, RelativeStrengthIndex.next, RelativeStrengthIndex.init]
  rw [hS]
  norm_num [RelativeStrengthIndex.next, wilderStep]

/-- Witness for the amended C2 at a concrete steady-phase ADX state and a
concrete steady-phase RSI state. -/
theorem wilder_recurrence_per_tick_witness :
    ((sampleAdx.next ⟨2, 0, 1⟩).1.prev_plus_dm =
        wilderStep sampleAdx.period sampleAdx.prev_plus_dm
          (dmRule ((2 : ℚ) - 1) (sampleAdx.prev_low.getD 0 - 0)).1 ∧
     (sampleAdx.next ⟨2, 0, 1⟩).1.prev_minus_dm =
        wilderStep sampleAdx.period sampleAdx.prev_minus_dm
          (dmRule ((2 : ℚ) - 1) (sampleAdx.prev_low.getD 0 - 0)).2 ∧
     (sampleAdx.next ⟨2, 0, 1⟩).1.prev_tr =
        wilderStep sampleAdx.period sampleAdx.prev_tr (sampleAdx.calculate_tr 2 0)) ∧
    ((sampleRsi.next 7).1.avg_gain =
        sampleRsi.avg_gain - sampleRsi.avg_gain / (sampleRsi.period : ℚ) +
          (if 0 ≤ (7 : ℚ) - sampleRsi.prev_val then (7 : ℚ) - sampleRsi.prev_val else 0) /
            (sampleRsi.period : ℚ) ∧
     (sampleRsi.next 7).1.avg_loss =
        sampleRsi.avg_loss - sampleRsi.avg_loss / (sampleRsi.period : ℚ) +
          (if 0 ≤ (7 : ℚ) - sampleRsi.prev_val then 0 else -((7 : ℚ) - sampleRsi.prev_val)) /
            (sampleRsi.period : ℚ)) :=
  wilder_recurrence_per_tick sampleAdx ⟨2, 0, 1⟩ 1 sampleRsi 7 rfl rfl
    (by simp [sampleAdx]) rfl (by norm_num [sampleRsi])
    (by norm_num [sampleRsi]) (by norm_num [sampleRsi])

/-! ## C5: the sliding-window invariant of Correlation -/

/-- The circular-index bump of `Correlation::next` is the successor mod
`period`. -/
theorem succ_mod (p n : ℕ) (hp : 0 < p) :
    (if n % p + 1 < p then n % p + 1 else 0) = (n + 1) % p := by
  have hlt : n % p < p := Nat.mod_lt _ hp
  by_cases hc : n % p + 1 < p
  · rw [if_pos hc]
    rw [← Nat.mod_add_mod, Nat.mod_eq_of_lt hc]
  · rw [if_neg hc]
    have he : n % p + 1 = p := by omega
    rw [← Nat.mod_add_mod, he, Nat.mod_self]

/-- Position of the newest window entry: one step behind the bumped index
is the slot that was just written. -/
theorem window_pos_zero (p n : ℕ) (hp : 0 < p) :
    ((n + 1) % p + p - 1) % p = n % p := by
  have h1 : (n + 1) % p + p - 1 = (n + 1) % p + (p - 1) := by omega
  rw [h1, Nat.mod_add_mod, show n + 1 + (p - 1) = n + p by omega, Nat.add_mod_right]

/-- Position shift of the older window entries under the index bump. -/
theorem window_pos_succ (p n j : ℕ) (hp : 0 < p) (hj : j + 2 ≤ p) :
    ((n + 1) % p + p - 1 - (j + 1)) % p = (n % p + p - 1 - j) % p := by
  have h1 : (n + 1) % p + p - 1 - (j + 1) = (n + 1) % p + (p - 2 - j) := by omega
  have h2 : n % p + p - 1 - j = n % p + (p - 1 - j) := by omega
  rw [h1, h2, Nat.mod_add_mod, Nat.mod_add_mod,
      show n + 1 + (p - 2 - j) = n + (p - 1 - j) by omega]

/-- The older window positions differ from the just-written slot. -/
theorem window_pos_succ_ne (p n j : ℕ) (hp : 0 < p) (hj : j + 2 ≤ p) :
    ((n + 1) % p + p - 1 - (j + 1)) % p ≠ n % p := by
  rw [window_pos_succ p n j hp hj]
  have h2 : n % p + p - 1 - j = n % p + (p - 1 - j) := by omega
  rw [h2, Nat.mod_add_mod]
  intro hcontra
  have hd1 : 1 ≤ p - 1 - j := by omega
  have hd2 : p - 1 - j < p := by omega
  have hmodeq : Nat.ModEq p (n + (p - 1 - j)) (n + 0) := by
    simpa [Nat.ModEq] using hcontra
  have : Nat.ModEq p (p - 1 - j) 0 := Nat.ModEq.add_left_cancel' n hmodeq
  have hdvd : p ∣ (p - 1 - j) := (Nat.modEq_zero_iff_dvd).mp this
  exact absurd (Nat.le_of_dvd (by omega) hdvd) (by omega)

/-- `getD` after writing the same slot. -/
theorem getD_set_self {α : Type} (l : List α) (i : ℕ) (x d : α) (h : i < l.length) :
    (l.set i x).getD i d = x := by
  rw [List.getD_eq_getElem?_getD, List.getElem?_set_self h]
  rfl

/-- `getD` after writing a different slot. -/
theorem getD_set_ne {α : Type} (l : List α) (i k : ℕ) (x d : α) (h : i ≠ k) :
    (l.set i x).getD k d = l.getD k d := by
  rw [List.getD_eq_getElem?_getD, List.getElem?_set_ne h, ← List.getD_eq_getElem?_getD]

/-- Splitting the sum over a full window into the older part plus the
oldest entry. -/
theorem sum_take_window (f : ℚ × ℚ → ℚ) (r : List (ℚ × ℚ)) (p : ℕ)
    (hp : 1 ≤ p) (hlen : p ≤ r.length) :
    ((r.take p).map f).sum =
      ((r.take (p - 1)).map f).sum + f (r.getD (p - 1) (0, 0)) := by
  conv_lhs => rw [show p = (p - 1) + 1 by omega, List.take_succ]
  have hx : r[p - 1]? = some (r.getD (p - 1) (0, 0)) := by
    rw [List.getElem?_eq_getElem (by omega), List.getD_eq_getElem _ _ (by omega)]
  rw [List.map_append, List.sum_append, hx]
  simp

/-- The full window/sums invariant of a `Correlation` state after the
input history `l` has been fed: the circular buffers hold exactly the
`min l.length p` most recent points (the `j`-th most recent at slot
`(index + p - 1 - j) % p`), and each running sum equals the corresponding
sum over exactly those points. -/
def CorrInv (p : ℕ) (l : List (ℚ × ℚ)) (s : Correlation) : Prop :=
  s.period = p ∧ s.index = l.length % p ∧ s.count = min l.length p ∧
  s.values_x.length = p ∧ s.values_y.length = p ∧
  (∀ j, j < min l.length p →
    s.values_x.getD ((s.index + p - 1 - j) % p) 0 = (l.reverse.getD j (0, 0)).1 ∧
    s.values_y.getD ((s.index + p - 1 - j) % p) 0 = (l.reverse.getD j (0, 0)).2) ∧
  s.sum_x = ((l.reverse.take p).map Prod.fst).sum ∧
  s.sum_y = ((l.reverse.take p).map Prod.snd).sum ∧
  s.sum_xy = ((l.reverse.take p).map (fun q => q.1 * q.2)).sum ∧
  s.sum_x2 = ((l.reverse.take p).map (fun q => q.1 * q.1)).sum ∧
  s.sum_y2 = ((l.reverse.take p).map (fun q => q.2 * q.2)).sum

/-- The invariant holds for a fresh instance. -/
theorem corrInv_init (p : ℕ) : CorrInv p [] (Correlation.init p) := by
  refine ⟨rfl, by simp [Correlation.init], by simp [Correlation.init],
    by simp [Correlation.init], by simp [Correlation.init], ?_, by simp [Correlation.init],
    by simp [Correlation.init], by simp [Correlation.init], by simp [Correlation.init],
    by simp [Correlation.init]⟩
  intro j hj
  simp at hj

/-- One `next` call preserves the window/sums invariant. -/
theorem corrInv_step (p : ℕ) (hp : 1 ≤ p) (l : List (ℚ × ℚ)) (s : Correlation)
    (a : ℚ × ℚ) (h : CorrInv p l s) : CorrInv p (l ++ [a]) (s.step a) := by
  obtain ⟨hper, hidx, hcnt, hlx, hly, hwin, hsx, hsy, hsxy, hsx2, hsy2⟩ := h
  set n := l.length with hn
  have hrev : (l ++ [a]).reverse = a :: l.reverse := by simp
  have hrevlen : l.reverse.length = n := by simp
  by_cases hc : s.count < s.period
  · -- growing phase: n < p
    have hnp : n < p := by
      rw [hcnt, hper] at hc
      omega
    have hcount : s.count = n := by rw [hcnt]; omega
    have hidxn : s.index = n := by rw [hidx, Nat.mod_eq_of_lt hnp]
    have hstep : s.step a =
        { s with
          values_x := s.values_x.set s.index a.1, values_y := s.values_y.set s.index a.2,
          index := if s.index + 1 < s.period then s.index + 1 else 0,
          count := s.count + 1,
          sum_x := s.sum_x + a.1, sum_y := s.sum_y + a.2,
          sum_xy := s.sum_xy + a.1 * a.2,
          sum_x2 := s.sum_x2 + a.1 * a.1, sum_y2 := s.sum_y2 + a.2 * a.2 } := by
      rw [Correlation.step, if_pos hc]
    rw [hstep]
    have hidx' : (if s.index + 1 < s.period then s.index + 1 else 0) = (n + 1) % p := by
      rw [hper, hidx]
      exact succ_mod p n (by omega)
    have htake : l.reverse.take p = l.reverse := List.take_of_length_le (by omega)
    have htake1 : l.reverse.take (p - 1) = l.reverse := List.take_of_length_le (by omega)
    have htakenew : (l ++ [a]).reverse.take p = a :: l.reverse := by
      rw [hrev, show p = (p - 1) + 1 by omega]
      simp [htake1]
    refine ⟨hper, ?_, ?_, ?_, ?_, ?_, ?_, ?_, ?_, ?_, ?_⟩
    · simp [hidx']
    · simp [hcount]
      omega
    · simp [hlx]
    · simp [hly]
    · intro j hj
      have hlen' : (l ++ [a]).length = n + 1 := by simp
      rw [hlen'] at hj
      have hj1 : j < n + 1 := by omega
      rcases Nat.eq_zero_or_pos j with hj0 | hjpos
      · subst hj0
        simp only [hidx', Nat.sub_zero]
        rw [window_pos_zero p n (by omega), Nat.mod_eq_of_lt hnp, ← hidxn]
        constructor
        · rw [getD_set_self _ _ _ _ (by rw [hlx, hidxn]; exact hnp)]
          simp [hrev]
        · rw [getD_set_self _ _ _ _ (by rw [hly, hidxn]; exact hnp)]
          simp [hrev]
      · obtain ⟨j', rfl⟩ : ∃ j', j = j' + 1 := ⟨j - 1, by omega⟩
        have hj2 : j' + 2 ≤ p := by omega
        simp only [hidx']
        rw [window_pos_succ p n j' (by omega) hj2, Nat.mod_eq_of_lt hnp, ← hidxn]
        have hne := window_pos_succ_ne p n j' (by omega) hj2
        rw [window_pos_succ p n j' (by omega) hj2, Nat.mod_eq_of_lt hnp, ← hidxn] at hne
        have hwj := hwin j' (by omega)
        constructor
        · rw [getD_set_ne _ _ _ _ _ (fun hh => hne hh.symm), hwj.1, hrev]
          simp
        · rw [getD_set_ne _ _ _ _ _ (fun hh => hne hh.symm), hwj.2, hrev]
          simp
    · dsimp only
      rw [hsx, htake, htakenew, List.map_cons, List.sum_cons]; ring
    · dsimp only
      rw [hsy, htake, htakenew, List.map_cons, List.sum_cons]; ring
    · dsimp only
      rw [hsxy, htake, htakenew, List.map_cons, List.sum_cons]; ring
    · dsimp only
      rw [hsx2, htake, htakenew, List.map_cons, List.sum_cons]; ring
    · dsimp only
      rw [hsy2, htake, htakenew, List.map_cons, List.sum_cons]; ring
  · -- full-window phase: n >= p
    have hnp : p ≤ n := by
      rw [hcnt, hper] at hc
      omega
    have hcount : s.count = p := by rw [hcnt]; omega
    have htrx : s.values_x.getD s.index 0 = (l.reverse.getD (p - 1) (0, 0)).1 := by
      have hw := (hwin (p - 1) (by omega)).1
      have hpos : (s.index + p - 1 - (p - 1)) % p = s.index := by
        rw [hidx]
        have h9 : n % p + p - 1 - (p - 1) = n % p := by omega
        rw [h9, Nat.mod_eq_of_lt (Nat.mod_lt _ (by omega))]
      rw [hpos] at hw
      exact hw
    have htry : s.values_y.getD s.index 0 = (l.reverse.getD (p - 1) (0, 0)).2 := by
      have hw := (hwin (p - 1) (by omega)).2
      have hpos : (s.index + p - 1 - (p - 1)) % p = s.index := by
        rw [hidx]
        have : n % p + p - 1 - (p - 1) = n % p := by omega
        rw [this, Nat.mod_eq_of_lt (Nat.mod_lt _ (by omega))]
      rw [hpos] at hw
      exact hw
    have hstep : s.step a =
        { s with
          values_x := s.values_x.set s.index a.1, values_y := s.values_y.set s.index a.2,
          index := if s.index + 1 < s.period then s.index + 1 else 0,
          sum_x := s.sum_x - s.values_x.getD s.index 0 + a.1,
          sum_y := s.sum_y - s.values_y.getD s.index 0 + a.2,
          sum_xy := s.sum_xy - s.values_x.getD s.index 0 * s.values_y.getD s.index 0 + a.1 * a.2,
          sum_x2 := s.sum_x2 - s.values_x.getD s.index 0 * s.values_x.getD s.index 0 + a.1 * a.1,
          sum_y2 := s.sum_y2 - s.values_y.getD s.index 0 * s.values_y.getD s.index 0 + a.2 * a.2 } := by
      rw [Correlation.step, if_neg hc]
    rw [hstep]
    have hidx' : (if s.index + 1 < s.period then s.index + 1 else 0) = (n + 1) % p := by
      rw [hper, hidx]
      exact succ_mod p n (by omega)
    have hwinsum : ∀ f : ℚ × ℚ → ℚ,
        (((l ++ [a]).reverse.take p).map f).sum =
          ((l.reverse.take p).map f).sum - f (l.reverse.getD (p - 1) (0, 0)) + f a := by
      intro f
      rw [hrev]
      conv_lhs => rw [show p = (p - 1) + 1 by omega]
      simp only [List.take_succ_cons, List.map_cons, List.sum_cons]
      rw [sum_take_window f l.reverse p hp (by omega)]
      ring
    refine ⟨hper, ?_, ?_, ?_, ?_, ?_, ?_, ?_, ?_, ?_, ?_⟩
    · simp [hidx']
    · simp [hcount]
      omega
    · simp [hlx]
    · simp [hly]
    · intro j hj
      have hlen' : (l ++ [a]).length = n + 1 := by simp
      rw [hlen'] at hj
      have hjp : j < p := by omega
      rcases Nat.eq_zero_or_pos j with hj0 | hjpos
      · subst hj0
        simp only [hidx', Nat.sub_zero]
        rw [window_pos_zero p n (by omega), ← hidx]
        constructor
        · rw [getD_set_self _ _ _ _ (by rw [hlx, hidx]; exact Nat.mod_lt _ (by omega))]
          simp [hrev]
        · rw [getD_set_self _ _ _ _ (by rw [hly, hidx]; exact Nat.mod_lt _ (by omega))]
          simp [hrev]
      · obtain ⟨j', rfl⟩ : ∃ j', j = j' + 1 := ⟨j - 1, by omega⟩
        have hj2 : j' + 2 ≤ p := by omega
        simp only [hidx']
        rw [window_pos_succ p n j' (by omega) hj2]
        have hne := window_pos_succ_ne p n j' (by omega) hj2
        rw [window_pos_succ p n j' (by omega) hj2] at hne
        rw [← hidx] at hne ⊢
        have hwj := hwin j' (by omega)
        constructor
        · rw [getD_set_ne _ _ _ _ _ (fun hh => hne hh.symm), hwj.1, hrev]
          simp
        · rw [getD_set_ne _ _ _ _ _ (fun hh => hne hh.symm), hwj.2, hrev]
          simp
    · simp only [hsx, htrx, hwinsum Prod.fst]
    · simp only [hsy, htry, hwinsum Prod.snd]
    · simp only [hsxy, htrx, htry, hwinsum (fun q => q.1 * q.2)]
    · simp only [hsx2, htrx, hwinsum (fun q => q.1 * q.1)]
    · simp only [hsy2, htry, hwinsum (fun q => q.2 * q.2)]

/-- The invariant holds after any input history. -/
theorem corrInv_run (p : ℕ) (hp : 1 ≤ p) (l : List (ℚ × ℚ)) :
    CorrInv p l (Correlation.runState (Correlation.init p) l) := by
  induction l using List.reverseRecOn with
  | nil => exact corrInv_init p
  | append_singleton l a ih =>
    rw [Correlation.runState, List.foldl_append, List.foldl_cons, List.foldl_nil]
    exact corrInv_step p hp l _ a ih

/-- `Correlation.run` evolves the state exactly as `Correlation.runState`. -/
theorem corr_run_fst (s : Correlation) (l : List (ℚ × ℚ)) :
    (Correlation.run s l).1 = Correlation.runState s l := by
  induction l generalizing s with
  | nil => rfl
  | cons a l ih => simp [Correlation.run, Correlation.runState, List.foldl_cons, ih,
      Correlation.next, Correlation.runState]

/-- C5: after every history of `next` calls the two circular buffers hold
exactly the `min count period` most recent points (the `j`-th most recent
at slot `(index + period - 1 - j) % period`), and each of the five running
sums equals the corresponding sum over exactly those points. -/
theorem corr_buffers_and_sums (p : ℕ) (hp : 1 ≤ p) (l : List (ℚ × ℚ)) :
    (Correlation.runState (Correlation.init p) l).count = min l.length p ∧
    (∀ j, j < min l.length p →
      (Correlation.runState (Correlation.init p) l).values_x.getD
        (((Correlation.runState (Correlation.init p) l).index + p - 1 - j) % p) 0 =
          (l.reverse.getD j (0, 0)).1 ∧
      (Correlation.runState (Correlation.init p) l).values_y.getD
        (((Correlation.runState (Correlation.init p) l).index + p - 1 - j) % p) 0 =
          (l.reverse.getD j (0, 0)).2) ∧
    (Correlation.runState (Correlation.init p) l).sum_x =
      ((l.reverse.take p).map Prod.fst).sum ∧
    (Correlation.runState (Correlation.init p) l).sum_y =
      ((l.reverse.take p).map Prod.snd).sum ∧
    (Correlation.runState (Correlation.init p) l).sum_xy =
      ((l.reverse.take p).map (fun q => q.1 * q.2)).sum ∧
    (Correlation.runState (Correlation.init p) l).sum_x2 =
      ((l.reverse.take p).map (fun q => q.1 * q.1)).sum ∧
    (Correlation.runState (Correlation.init p) l).sum_y2 =
      ((l.reverse.take p).map (fun q => q.2 * q.2)).sum := by
  obtain ⟨-, -, h3, -, -, h6, h7, h8, h9, h10, h11⟩ := corrInv_run p hp l
  exact ⟨h3, h6, h7, h8, h9, h10, h11⟩

/-- Witness for C5: a three-point window fed five points. -/
theorem corr_buffers_and_sums_witness :
    (Correlation.runState (Correlation.init 3) [(1, 2), (3, 4), (5, 6), (7, 8), (9, 10)]).count =
      min (List.length [((1 : ℚ), (2 : ℚ)), (3, 4), (5, 6), (7, 8), (9, 10)]) 3 ∧
    (∀ j, j < min (List.length [((1 : ℚ), (2 : ℚ)), (3, 4), (5, 6), (7, 8), (9, 10)]) 3 →
      (Correlation.runState (Correlation.init 3) [(1, 2), (3, 4), (5, 6), (7, 8), (9, 10)]).values_x.getD
        (((Correlation.runState (Correlation.init 3) [(1, 2), (3, 4), (5, 6), (7, 8), (9, 10)]).index + 3 - 1 - j) % 3) 0 =
          (([((1 : ℚ), (2 : ℚ)), (3, 4), (5, 6), (7, 8), (9, 10)].reverse).getD j (0, 0)).1 ∧
      (Correlation.runState (Correlation.init 3) [(1, 2), (3, 4), (5, 6), (7, 8), (9, 10)]).values_y.getD
        (((Correlation.runState (Correlation.init 3) [(1, 2), (3, 4), (5, 6), (7, 8), (9, 10)]).index + 3 - 1 - j) % 3) 0 =
          (([((1 : ℚ), (2 : ℚ)), (3, 4), (5, 6), (7, 8), (9, 10)].reverse).getD j (0, 0)).2) ∧
    (Correlation.runState (Correlation.init 3) [(1, 2), (3, 4), (5, 6), (7, 8), (9, 10)]).sum_x =
      ((([((1 : ℚ), (2 : ℚ)), (3, 4), (5, 6), (7, 8), (9, 10)].reverse).take 3).map Prod.fst).sum ∧
    (Correlation.runState (Correlation.init 3) [(1, 2), (3, 4), (5, 6), (7, 8), (9, 10)]).sum_y =
      ((([((1 : ℚ), (2 : ℚ)), (3, 4), (5, 6), (7, 8), (9, 10)].reverse).take 3).map Prod.snd).sum ∧
    (Correlation.runState (Correlation.init 3) [(1, 2), (3, 4), (5, 6), (7, 8), (9, 10)]).sum_xy =
      ((([((1 : ℚ), (2 : ℚ)), (3, 4), (5, 6), (7, 8), (9, 10)].reverse).take 3).map (fun q => q.1 * q.2)).sum ∧
    (Correlation.runState (Correlation.init 3) [(1, 2), (3, 4), (5, 6), (7, 8), (9, 10)]).sum_x2 =
      ((([((1 : ℚ), (2 : ℚ)), (3, 4), (5, 6), (7, 8), (9, 10)].reverse).take 3).map (fun q => q.1 * q.1)).sum ∧
    (Correlation.runState (Correlation.init 3) [(1, 2), (3, 4), (5, 6), (7, 8), (9, 10)]).sum_y2 =
      ((([((1 : ℚ), (2 : ℚ)), (3, 4), (5, 6), (7, 8), (9, 10)].reverse).take 3).map (fun q => q.2 * q.2)).sum :=
  corr_buffers_and_sums 3 (by omega) [(1, 2), (3, 4), (5, 6), (7, 8), (9, 10)]

/-! ## C8 and C9: the output guards of Correlation -/

/-- The `i`-th collected output of a run is the output of the state after
the first `i + 1` inputs. -/
theorem corr_run_output_getD (s : Correlation) (l : List (ℚ × ℚ)) (i : ℕ)
    (hi : i < l.length) :
    (Correlation.run s l).2.getD i 0 =
      (Correlation.runState s (l.take (i + 1))).output := by
  induction l generalizing s i with
  | nil => simp at hi
  | cons a l ih =>
    rcases Nat.eq_zero_or_pos i with h0 | hpos
    · subst h0
      simp [Correlation.run, Correlation.next, Correlation.runState]
    · obtain ⟨i', rfl⟩ : ∃ i', i = i' + 1 := ⟨i - 1, by omega⟩
      have hi' : i' < l.length := by simpa using hi
      show ((Correlation.run s (a :: l)).2).getD (i' + 1) 0 = _
      rw [show (Correlation.run s (a :: l)).2 =
            (s.step a).output :: (Correlation.run (s.step a) l).2 by
          simp [Correlation.run, Correlation.next]]
      rw [List.getD_cons_succ, ih (s.step a) i' hi']
      rfl

/-- C9: a `Correlation` constructed with period 1 returns `0.0` on every
call, for every input sequence: the point count is capped at
`min count period = 1`, so the at-least-two-points requirement is never
met and the correlation formula is never evaluated. -/
theorem corr_period_one_always_zero (l : List (ℚ × ℚ)) (i : ℕ) (hi : i < l.length) :
    (Correlation.run (Correlation.init 1) l).2.getD i 0 = 0 := by
  rw [corr_run_output_getD _ _ _ hi]
  obtain ⟨-, -, hcnt, -⟩ := corrInv_run 1 (by omega) (l.take (i + 1))
  rw [Correlation.output, if_pos (by omega)]

/-- Witness for C9. -/
theorem corr_period_one_always_zero_witness :
    (Correlation.run (Correlation.init 1) [(5, 7), (8, 9)]).2.getD 0 0 = 0 :=
  corr_period_one_always_zero [(5, 7), (8, 9)] 0 (by simp)

/-- C8: the returned value is `0.0` exactly as dictated by the two guards
(fewer than two accumulated points, or a non-positive denominator), and
`numerator / sqrt denominator` otherwise; in particular a constant pair
fed for any number of ticks (so in particular a full window of `period`
points of zero variance) always returns `0.0` rather than `NaN` or an
error. -/
theorem corr_denominator_guard (s : Correlation) (input : ℚ × ℚ)
    (p k i : ℕ) (x y : ℚ) (hp : 1 ≤ p) (hi : i < k) :
    (s.next input).2 =
      (if (s.step input).count < 2 ∨ (s.step input).denom ≤ 0 then 0
       else ((s.step input).num : ℝ) / Real.sqrt ((s.step input).denom : ℝ)) ∧
    (Correlation.run (Correlation.init p) (List.replicate k (x, y))).2.getD i 0 = 0 := by
  constructor
  · show (s.step input).output = _
    by_cases h1 : (s.step input).count < 2
    · rw [Correlation.output, if_pos h1, if_pos (Or.inl h1)]
    · by_cases h2 : (s.step input).denom ≤ 0
      · rw [Correlation.output, if_neg h1, if_pos h2, if_pos (Or.inr h2)]
      · rw [Correlation.output, if_neg h1, if_neg h2,
          if_neg (by push_neg; exact ⟨by omega, by exact lt_of_not_le h2⟩)]
  · rw [corr_run_output_getD _ _ _ (by simpa using hi)]
    have hpre : (List.replicate k (x, y)).take (i + 1) = List.replicate (i + 1) (x, y) := by
      rw [List.take_replicate]
      congr 1
      omega
    rw [hpre]
    obtain ⟨-, -, hcnt, -, -, -, hsx, hsy, hsxy, hsx2, hsy2⟩ :=
      corrInv_run p hp (List.replicate (i + 1) (x, y))
    set s1 := Correlation.runState (Correlation.init p) (List.replicate (i + 1) (x, y))
    have hm : s1.count = min (i + 1) p := by simpa using hcnt
    by_cases hlt : s1.count < 2
    · rw [Correlation.output, if_pos hlt]
    · have hsums : s1.sum_x = (s1.count : ℚ) * x ∧ s1.sum_x2 = (s1.count : ℚ) * (x * x) := by
        constructor
        · rw [hsx, List.reverse_replicate, List.take_replicate, List.map_replicate,
            List.sum_replicate, nsmul_eq_mul, hm, Nat.min_comm]
        · rw [hsx2, List.reverse_replicate, List.take_replicate, List.map_replicate,
            List.sum_replicate, nsmul_eq_mul, hm, Nat.min_comm]
      have hc0 : (s1.count : ℚ) ≠ 0 := Nat.cast_ne_zero.mpr (by omega)
      have hdx : s1.denomX = 0 := by
        rw [Correlation.denomX, hsums.1, hsums.2]
        field_simp
        ring
      rw [Correlation.output, if_neg hlt, if_pos (by rw [Correlation.denom, hdx]; simp)]

/-- Witness for C8 at a concrete state and a constant two-tick feed. -/
theorem corr_denominator_guard_witness :
    (sampleCorr.next (2, 3)).2 =
      (if (sampleCorr.step (2, 3)).count < 2 ∨ (sampleCorr.step (2, 3)).denom ≤ 0 then 0
       else ((sampleCorr.step (2, 3)).num : ℝ) /
         Real.sqrt ((sampleCorr.step (2, 3)).denom : ℝ)) ∧
    (Correlation.run (Correlation.init 2) (List.replicate 2 ((5 : ℚ), (5 : ℚ)))).2.getD 1 0 = 0 :=
  corr_denominator_guard sampleCorr (2, 3) 2 2 1 5 5 (by omega) (by omega)

/-! ## C4: RSI totality, warm-up NaN, and the 0..100 range -/

/-- The RSI output formula stays in `[0, 100]` for nonnegative averages. -/
theorem rsi_out_bounds (ag al : ℚ) (hag : 0 ≤ ag) (hal : 0 ≤ al) :
    0 ≤ (if al = 0 then (if ag = 0 then (50 : ℚ) else 100) else 100 - 100 / (1 + ag / al)) ∧
    (if al = 0 then (if ag = 0 then (50 : ℚ) else 100) else 100 - 100 / (1 + ag / al)) ≤ 100 := by
  by_cases h1 : al = 0
  · by_cases h2 : ag = 0 <;> simp [h1, h2] <;> norm_num
  · have hal' : 0 < al := lt_of_le_of_ne hal (Ne.symm h1)
    have hrs : 0 ≤ ag / al := div_nonneg hag (le_of_lt hal')
    have h1p : (1 : ℚ) ≤ 1 + ag / al := by linarith
    have hd1 : 100 / (1 + ag / al) ≤ 100 := div_le_self (by norm_num) h1p
    have hd0 : (0 : ℚ) < 100 / (1 + ag / al) := by positivity
    rw [if_neg h1]
    constructor <;> linarith

/-- Invariant of an RSI state after `t` ticks: the phase flag marks tick
zero, the queue holds `min (t-1) period` nonnegative gain/loss pairs, and
both running averages are nonnegative. -/
def RsiInv (p t : ℕ) (s : RelativeStrengthIndex) : Prop :=
  s.period = p ∧ (s.is_new = true ↔ t = 0) ∧
  s.price_changes.length = min (t - 1) p ∧
  (∀ gl ∈ s.price_changes, 0 ≤ gl.1 ∧ 0 ≤ gl.2) ∧
  0 ≤ s.avg_gain ∧ 0 ≤ s.avg_loss

/-- The invariant holds for a fresh instance. -/
theorem rsiInv_init (p : ℕ) : RsiInv p 0 (RelativeStrengthIndex.init p) := by
  refine ⟨rfl, by simp [RelativeStrengthIndex.init], by simp [RelativeStrengthIndex.init], ?_,
    le_refl 0, le_refl 0⟩
  intro gl hgl
  simp [RelativeStrengthIndex.init] at hgl

/-- One `next` call preserves the invariant and produces `NaN` exactly
through tick `period`, a value in `[0, 100]` afterwards. -/
theorem rsiInv_step (p t : ℕ) (hp : 1 ≤ p) (s : RelativeStrengthIndex) (x : ℚ)
    (h : RsiInv p t s) :
    RsiInv p (t + 1) (s.next x).1 ∧
    (t + 1 ≤ p → (s.next x).2 = none) ∧
    (p < t + 1 → ∃ q, (s.next x).2 = some q ∧ 0 ≤ q ∧ q ≤ 100) := by
  obtain ⟨hper, hneww, hlen, hnn, hag, hal⟩ := h
  rcases Nat.eq_zero_or_pos t with ht0 | htpos
  · subst ht0
    rw [RelativeStrengthIndex.next_first s x (hneww.mpr rfl)]
    refine ⟨⟨hper, by simp, by simpa using hlen, hnn, hag, hal⟩, fun _ => rfl, fun hcon => ?_⟩
    omega
  · have hnew : s.is_new = false := by
      rcases Bool.eq_false_or_eq_true s.is_new with hb | hb
      · exact absurd (hneww.mp hb) (by omega)
      · exact hb
    have hglnn : ∀ ch : ℚ,
        0 ≤ (if 0 ≤ ch then (ch, (0 : ℚ)) else ((0 : ℚ), -ch)).1 ∧
        0 ≤ (if 0 ≤ ch then (ch, (0 : ℚ)) else ((0 : ℚ), -ch)).2 := by
      intro ch
      by_cases hch : 0 ≤ ch <;> simp [hch] <;> linarith [hch]
    by_cases hwarm : t < p
    · -- still warming up: the queue has not filled yet
      have hlt : s.price_changes.length + 1 < s.period := by
        rw [hper, hlen]
        omega
      rw [RelativeStrengthIndex.next_warm s x hnew hlt]
      refine ⟨⟨hper, by simp [hnew], ?_, ?_, hag, hal⟩, fun _ => rfl, fun hcon => by omega⟩
      · simp [hlen]
        omega
      · intro gl hgl
        simp only [List.mem_append, List.mem_singleton] at hgl
        rcases hgl with hgl | hgl
        · exact hnn gl hgl
        · subst hgl
          exact hglnn (x - s.prev_val)
    · -- the queue fills now (or is already full)
      have hlt : ¬ s.price_changes.length + 1 < s.period := by
        rw [hper, hlen]
        omega
      have hq2len : ∀ gl : ℚ × ℚ,
          ((s.price_changes ++ [gl]).drop (s.price_changes.length + 1 - s.period)).length
            = p := by
        intro gl
        simp [hper, hlen]
        omega
      have hq2nn : ∀ gl : ℚ × ℚ, (0 ≤ gl.1 ∧ 0 ≤ gl.2) →
          ∀ q ∈ (s.price_changes ++ [gl]).drop (s.price_changes.length + 1 - s.period),
            0 ≤ q.1 ∧ 0 ≤ q.2 := by
        intro gl hgl q hq
        have hq' : q ∈ s.price_changes ++ [gl] := List.mem_of_mem_drop hq
        simp only [List.mem_append, List.mem_singleton] at hq'
        rcases hq' with hq' | hq'
        · exact hnn q hq'
        · subst hq'
          exact hgl
      by_cases hseed : s.avg_gain = 0 ∧ s.avg_loss = 0
      · rw [RelativeStrengthIndex.next_seed s x hnew hlt (by omega : 1 ≤ s.period)
            hseed.1 hseed.2]
        simp only
        set gl : ℚ × ℚ :=
          if 0 ≤ x - s.prev_val then (x - s.prev_val, 0) else (0, -(x - s.prev_val)) with hgl
        set q2 := (s.price_changes ++ [gl]).drop (s.price_changes.length + 1 - s.period)
          with hq2
        have hq2nn' := hq2nn gl (by rw [hgl]; exact hglnn (x - s.prev_val))
        have hagnn : 0 ≤ (q2.map Prod.fst).sum / (s.period : ℚ) := by
          apply div_nonneg
          · apply List.sum_nonneg
            intro v hv
            obtain ⟨q, hq, rfl⟩ := List.mem_map.mp hv
            exact (hq2nn' q hq).1
          · positivity
        have halnn : 0 ≤ (q2.map Prod.snd).sum / (s.period : ℚ) := by
          apply div_nonneg
          · apply List.sum_nonneg
            intro v hv
            obtain ⟨q, hq, rfl⟩ := List.mem_map.mp hv
            exact (hq2nn' q hq).2
          · positivity
        have hbounds := rsi_out_bounds _ _ hagnn halnn
        refine ⟨⟨hper, by simp [hnew], ?_, ?_, hagnn, halnn⟩, fun hcon => by omega, fun _ => ?_⟩
        · show q2.length = min (t + 1 - 1) p
          rw [hq2len gl]
          omega
        · intro q hq
          exact hq2nn' q hq
        · exact ⟨_, rfl, hbounds.1, hbounds.2⟩
      · rw [RelativeStrengthIndex.next_smooth s x hnew hlt hseed]
        simp only
        set gl : ℚ × ℚ :=
          if 0 ≤ x - s.prev_val then (x - s.prev_val, 0) else (0, -(x - s.prev_val)) with hgl
        set q2 := (s.price_changes ++ [gl]).drop (s.price_changes.length + 1 - s.period)
          with hq2
        have hglnn' := hglnn (x - s.prev_val)
        have hagnn : 0 ≤ (s.avg_gain * ((s.period : ℚ) - 1) + gl.1) / (s.period : ℚ) := by
          apply div_nonneg
          · have : (0 : ℚ) ≤ (s.period : ℚ) - 1 := by
              have : (1 : ℚ) ≤ (s.period : ℚ) := by exact_mod_cast (hper ▸ hp)
              linarith
            have h1 : 0 ≤ s.avg_gain * ((s.period : ℚ) - 1) := mul_nonneg hag this
            rw [hgl]
            rcases hglnn (x - s.prev_val) with ⟨h2, -⟩
            linarith
          · positivity
        have halnn : 0 ≤ (s.avg_loss * ((s.period : ℚ) - 1) + gl.2) / (s.period : ℚ) := by
          apply div_nonneg
          · have : (0 : ℚ) ≤ (s.period : ℚ) - 1 := by
              have : (1 : ℚ) ≤ (s.period : ℚ) := by exact_mod_cast (hper ▸ hp)
              linarith
            have h1 : 0 ≤ s.avg_loss * ((s.period : ℚ) - 1) := mul_nonneg hal this
            rw [hgl]
            rcases hglnn (x - s.prev_val) with ⟨-, h2⟩
            linarith
          · positivity
        have hbounds := rsi_out_bounds _ _ hagnn halnn
        refine ⟨⟨hper, by simp [hnew], ?_, ?_, hagnn, halnn⟩, fun hcon => by omega, fun _ => ?_⟩
        · show q2.length = min (t + 1 - 1) p
          rw [hq2, hq2len gl]
          omega
        · intro q hq
          exact hq2nn gl (by rw [hgl]; exact hglnn' ) q hq
        · exact ⟨_, rfl, hbounds.1, hbounds.2⟩

/-- Outputs along a whole RSI run, relative to the ticks already fed. -/
theorem rsiInv_run (p : ℕ) (hp : 1 ≤ p) (xs : List ℚ) :
    ∀ (t : ℕ) (s : RelativeStrengthIndex), RsiInv p t s →
      ∀ i, i < xs.length →
        (t + i + 1 ≤ p → (RelativeStrengthIndex.run s xs).2.getD i none = none) ∧
        (p < t + i + 1 →
          ∃ q, (RelativeStrengthIndex.run s xs).2.getD i none = some q ∧ 0 ≤ q ∧ q ≤ 100) := by
  induction xs with
  | nil =>
    intro t s _ i hi
    simp at hi
  | cons x xs ih =>
    intro t s hs i hi
    obtain ⟨hinv, hout1, hout2⟩ := rsiInv_step p t hp s x hs
    have hrun : (RelativeStrengthIndex.run s (x :: xs)).2 =
        (s.next x).2 :: (RelativeStrengthIndex.run (s.next x).1 xs).2 := by
      simp [RelativeStrengthIndex.run]
    rcases Nat.eq_zero_or_pos i with h0 | hpos
    · subst h0
      rw [hrun]
      simp only [List.getD_cons_zero]
      exact ⟨fun h => hout1 (by omega), fun h => hout2 (by omega)⟩
    · obtain ⟨i', rfl⟩ : ∃ i', i = i' + 1 := ⟨i - 1, by omega⟩
      rw [hrun, List.getD_cons_succ]
      have := ih (t + 1) (s.next x).1 hinv i' (by simpa using hi)
      exact ⟨fun h => this.1 (by omega), fun h => this.2 (by omega)⟩

/-- C4: `next` is a total function of the embedding (it never fails); it
returns `NaN` exactly during warm-up - the first call and every call until
the gain/loss queue holds `period` entries, i.e. ticks `1 .. period` - and
from tick `period + 1` on it returns a value in `[0, 100]`. -/
theorem rsi_warmup_nan_then_bounded (p : ℕ) (hp : 1 ≤ p) (xs : List ℚ) (i : ℕ)
    (hi : i < xs.length) :
    ((RelativeStrengthIndex.run (RelativeStrengthIndex.init p) xs).2.getD i none = none ↔
      i + 1 ≤ p) ∧
    (p < i + 1 →
      ∃ q, (RelativeStrengthIndex.run (RelativeStrengthIndex.init p) xs).2.getD i none = some q ∧
        0 ≤ q ∧ q ≤ 100) := by
  have h := rsiInv_run p hp xs 0 (RelativeStrengthIndex.init p) (rsiInv_init p) i hi
  refine ⟨⟨fun hnone => ?_, fun hle => h.1 (by omega)⟩, fun hgt => h.2 (by omega)⟩
  by_contra hcon
  obtain ⟨q, hq, -, -⟩ := h.2 (by omega)
  rw [hnone] at hq
  exact Option.noConfusion hq

/-- Witness for C4: RSI(2) fed four values: `NaN, NaN, value, value`. -/
theorem rsi_warmup_nan_then_bounded_witness :
    ((RelativeStrengthIndex.run (RelativeStrengthIndex.init 2) [10, 11, 9, 12]).2.getD 2 none =
        none ↔ 2 + 1 ≤ 2) ∧
    (2 < 2 + 1 →
      ∃ q, (RelativeStrengthIndex.run (RelativeStrengthIndex.init 2) [10, 11, 9, 12]).2.getD 2 none
          = some q ∧ 0 ≤ q ∧ q ≤ 100) :=
  rsi_warmup_nan_then_bounded 2 (by omega) [10, 11, 9, 12] 2 (by simp)

/-! ## C6: the bit-exact correlation regression vector -/

set_option maxRecDepth 100000 in
/-- C6: under IEEE-754 binary64 arithmetic, `Correlation::new(3)` fed
`(2,3), (3,2), (6,1), (5,2)` returns exactly the four doubles
`0.0`, `-1.0`, `-0.9607689228305228`, `-0.7559289460184537`.  The run is
evaluated bit-exactly in the mantissa/exponent model; the third and fourth
results are the binary64 values `-8653837125697391 * 2^-53` and
`-6808802639214560 * 2^-53`, and the final two conjuncts show each lies
strictly within half an ulp (`2^-54`) of the quoted decimal literal, i.e.
each IS the unique binary64 double denoted by that literal. -/
theorem correl_regression_vector :
    (CorrelationF.runF (CorrelationF.init 3)
        [(intToFP 2, intToFP 3), (intToFP 3, intToFP 2),
         (intToFP 6, intToFP 1), (intToFP 5, intToFP 2)]).2 =
      [(0, 0), (-4503599627370496, -52), (-8653837125697391, -53), (-6808802639214560, -53)] ∧
    FP64.toRat (0, 0) = 0 ∧
    FP64.toRat (-4503599627370496, -52) = -1 ∧
    FP64.toRat (-8653837125697391, -53) = -(8653837125697391 : ℚ) / 9007199254740992 ∧
    FP64.toRat (-6808802639214560, -53) = -(6808802639214560 : ℚ) / 9007199254740992 ∧
    |(-(8653837125697391 : ℚ) / 9007199254740992) - (-0.9607689228305228)| <
      1 / 2 ^ 54 ∧
    |(-(6808802639214560 : ℚ) / 9007199254740992) - (-0.7559289460184537)| <
      1 / 2 ^ 54 := by
  refine ⟨?_, ?_, ?_, ?_, ?_, ?_, ?_⟩
  · decide
  · norm_num [FP64.toRat, pow2]
  · simp only [FP64.toRat, pow2]
    norm_num [show Int.toNat 52 = 52 from rfl]
  · simp only [FP64.toRat, pow2]
    norm_num [show Int.toNat 53 = 53 from rfl]
  · simp only [FP64.toRat, pow2]
    norm_num [show Int.toNat 53 = 53 from rfl]
  · rw [abs_sub_lt_iff]
    norm_num
  · rw [abs_sub_lt_iff]
    norm_num

/-! ## C3: ADX warm-up zeros, NaN window, and the 0..100 range -/

/-- Rounding away from zero keeps nonnegative values nonnegative. -/
theorem fround_nonneg (x : ℚ) (hx : 0 ≤ x) : 0 ≤ fround x := by
  rw [fround, if_pos hx]
  have : (0 : ℤ) ≤ ⌊x + 1 / 2⌋ := Int.le_floor.mpr (by push_cast; linarith)
  exact_mod_cast this

/-- Rounding keeps values at most 100 at most 100. -/
theorem fround_le_100 (x : ℚ) (hx : 0 ≤ x) (hx2 : x ≤ 100) : fround x ≤ 100 := by
  rw [fround, if_pos hx]
  have h1 : ⌊x + 1 / 2⌋ ≤ ⌊(100 : ℚ) + 1 / 2⌋ := Int.floor_le_floor (by linarith)
  have h2 : ⌊(100 : ℚ) + 1 / 2⌋ = 100 := by norm_num [Int.floor_eq_iff]
  have : (⌊x + 1 / 2⌋ : ℚ) ≤ (100 : ℤ) := by exact_mod_cast h1.trans_eq h2
  exact_mod_cast this

/-- Optional rounding keeps `[0, 100]` stable. -/
theorem roundP_bounds (s : AverageDirectionalIndex) (x : ℚ) (hx : 0 ≤ x) (hx2 : x ≤ 100) :
    0 ≤ s.roundP x ∧ s.roundP x ≤ 100 := by
  rw [AverageDirectionalIndex.roundP]
  split
  · exact ⟨fround_nonneg x hx, fround_le_100 x hx hx2⟩
  · exact ⟨hx, hx2⟩

/-- Optional rounding keeps nonnegativity. -/
theorem roundP_nonneg (s : AverageDirectionalIndex) (x : ℚ) (hx : 0 ≤ x) :
    0 ≤ s.roundP x := by
  rw [AverageDirectionalIndex.roundP]
  split
  · exact fround_nonneg x hx
  · exact hx

/-- Both directional movements are nonnegative by the case rule. -/
theorem dmRule_nonneg (a b : ℚ) : 0 ≤ (dmRule a b).1 ∧ 0 ≤ (dmRule a b).2 := by
  rw [dmRule]
  split
  · constructor
    · simp
    · simp only
      linarith [(by assumption : 0 < b ∧ a < b).1]
  · split
    · constructor
      · simp only
        linarith [(by assumption : 0 < a ∧ b < a).1]
      · simp
    · simp

/-- Once a previous close exists, the true range is nonnegative (it
dominates an absolute value). -/
theorem calculate_tr_nonneg (s : AverageDirectionalIndex) (high low pc : ℚ)
    (hpc : s.prev_close = some pc) : 0 ≤ s.calculate_tr high low := by
  rw [AverageDirectionalIndex.calculate_tr, hpc]
  have h1 : (0 : ℚ) ≤ |high - pc| := abs_nonneg _
  have h2 : |high - pc| ≤ max (max (high - low) |high - pc|) |low - pc| :=
    le_trans (le_max_right _ _) (le_max_left _ _)
  linarith

/-- The Wilder recurrence keeps nonnegative accumulators nonnegative. -/
theorem wilderStep_nonneg (p : ℕ) (hp : 1 ≤ p) (acc v : ℚ) (ha : 0 ≤ acc) (hv : 0 ≤ v) :
    0 ≤ wilderStep p acc v := by
  rw [wilderStep]
  have h1 : acc / (p : ℚ) ≤ acc := by
    apply div_le_self ha
    exact_mod_cast hp
  linarith

/-- A DX value computed from nonnegative smoothed inputs lies in
`[0, 100]`. -/
theorem dxOf_bounds (s : AverageDirectionalIndex) (pdm mdm tr : ℚ)
    (hpdm : 0 ≤ pdm) (hmdm : 0 ≤ mdm) :
    0 ≤ s.dxOf pdm mdm tr ∧ s.dxOf pdm mdm tr ≤ 100 := by
  have hdi : ∀ dm : ℚ, 0 ≤ dm → 0 ≤ s.diOf dm tr := by
    intro dm hdm
    rw [AverageDirectionalIndex.diOf]
    split
    · apply roundP_nonneg
      have htr : (0 : ℚ) < tr := by assumption
      positivity
    · exact le_refl 0
  rw [AverageDirectionalIndex.dxOf]
  set pdi := s.diOf pdm tr with hpdi
  set mdi := s.diOf mdm tr with hmdi
  have h1 : 0 ≤ pdi := hdi pdm hpdm
  have h2 : 0 ≤ mdi := hdi mdm hmdm
  split
  · have hsum : (0 : ℚ) < pdi + mdi := by assumption
    have habs : |pdi - mdi| ≤ pdi + mdi := by
      rw [abs_le]
      constructor <;> linarith
    apply roundP_bounds
    · positivity
    · have hr : |pdi - mdi| / (pdi + mdi) ≤ 1 := by
        rw [div_le_one hsum]
        exact habs
      nlinarith
  · norm_num

/-- A mean of `[0, 100]`-bounded values over a list of length `p >= 1`
lies in `[0, 100]`. -/
theorem mean_bounds (l : List ℚ) (p : ℕ) (hp : 1 ≤ p) (hl : l.length = p)
    (hmem : ∀ d ∈ l, 0 ≤ d ∧ d ≤ 100) :
    0 ≤ l.sum / (p : ℚ) ∧ l.sum / (p : ℚ) ≤ 100 := by
  have hp0 : (0 : ℚ) < (p : ℚ) := by exact_mod_cast hp
  constructor
  · apply div_nonneg _ (le_of_lt hp0)
    exact List.sum_nonneg fun d hd => (hmem d hd).1
  · rw [div_le_iff hp0]
    have := List.sum_le_card_nsmul l 100 fun d hd => (hmem d hd).2
    rw [hl] at this
    calc l.sum ≤ p • (100 : ℚ) := this
    _ = 100 * (p : ℚ) := by rw [nsmul_eq_mul]; ring

/-- The ADX smoothing step is a convex combination: it stays in
`[0, 100]`. -/
theorem adx_smooth_bounds (p : ℕ) (hp : 2 ≤ p) (adx dx : ℚ)
    (h1 : 0 ≤ adx) (h2 : adx ≤ 100) (h3 : 0 ≤ dx) (h4 : dx ≤ 100) :
    0 ≤ (adx * ((p : ℚ) - 1) + dx) / (p : ℚ) ∧
    (adx * ((p : ℚ) - 1) + dx) / (p : ℚ) ≤ 100 := by
  have hp0 : (0 : ℚ) < (p : ℚ) := by positivity
  have hp1 : (1 : ℚ) ≤ (p : ℚ) := by exact_mod_cast (by omega : 1 ≤ p)
  constructor
  · apply div_nonneg _ (le_of_lt hp0)
    have := mul_nonneg h1 (by linarith : (0 : ℚ) ≤ (p : ℚ) - 1)
    linarith
  · rw [div_le_iff hp0]
    have := mul_le_mul_of_nonneg_right h2 (by linarith : (0 : ℚ) ≤ (p : ℚ) - 1)
    nlinarith

/-- Invariant of an ADX state after `t` ticks: the previous-bar markers
flag tick zero, the phase flag flips at tick `period`, the DX history has
`min period (t - period)` entries all in `[0, 100]`, the tick counter
follows the accumulation phase, the three smoothed values are nonnegative
and the running ADX lies in `[0, 100]`. -/
def AdxInv (p t : ℕ) (s : AverageDirectionalIndex) : Prop :=
  s.period = p ∧
  (s.prev_high = none ↔ t = 0) ∧
  (s.prev_close = none ↔ t = 0) ∧
  (s.is_init = true ↔ p ≤ t) ∧
  s.dx_values.length = min p (t - p) ∧
  s.dx_count = (if t < p then t - 1 else 0) ∧
  0 ≤ s.prev_plus_dm ∧ 0 ≤ s.prev_minus_dm ∧ 0 ≤ s.prev_tr ∧
  (0 ≤ s.prev_adx ∧ s.prev_adx ≤ 100) ∧
  (∀ d ∈ s.dx_values, 0 ≤ d ∧ d ≤ 100)

/-- The invariant holds for a fresh instance with either rounding mode. -/
theorem adxInv_init (p : ℕ) (rp : Bool) (hp : 2 ≤ p) :
    AdxInv p 0 { AverageDirectionalIndex.init p with round_pos := rp } := by
  refine ⟨rfl, by simp [AverageDirectionalIndex.init], by simp [AverageDirectionalIndex.init],
    by simp [AverageDirectionalIndex.init]; omega, by simp [AverageDirectionalIndex.init],
    by simp [AverageDirectionalIndex.init], le_refl 0, le_refl 0, le_refl 0,
    ⟨le_refl 0, by norm_num [AverageDirectionalIndex.init]⟩, ?_⟩
  intro d hd
  simp [AverageDirectionalIndex.init] at hd

/-- One `next` call preserves the invariant, and its output is `0.0`
through tick `period`, `NaN` for ticks `period + 1` to `2 * period - 1`,
and a value in `[0, 100]` from tick `2 * period` on. -/
theorem adxInv_step (p t : ℕ) (hp : 2 ≤ p) (s : AverageDirectionalIndex) (b : Bar)
    (h : AdxInv p t s) :
    AdxInv p (t + 1) (s.next b).1 ∧
    (t + 1 ≤ p → (s.next b).2 = some 0) ∧
    (p < t + 1 → t + 1 < 2 * p → (s.next b).2 = none) ∧
    (2 * p ≤ t + 1 → ∃ q, (s.next b).2 = some q ∧ 0 ≤ q ∧ q ≤ 100) := by
  obtain ⟨hper, hph0, hpc0, hii, hlen, hcnt, hpdm, hmdm, htr, hadx, hdxmem⟩ := h
  have hsp1 : 1 ≤ s.period := by omega
  rcases Nat.eq_zero_or_pos t with ht0 | htpos
  · -- tick 1: record the bar, emit 0.0
    subst ht0
    have hiif : s.is_init = false := by
      rcases Bool.eq_false_or_eq_true s.is_init with hb | hb
      · exact absurd (hii.mp hb) (by omega)
      · exact hb
    rw [AverageDirectionalIndex.next_uninit s b (hph0.mpr rfl)]
    refine ⟨⟨hper, by simp, by simp, by simp [hiif]; omega, by rw [(by omega : p ⊓ (1 - p) = p ⊓ (0 - p))]; exact hlen,
      by show s.dx_count = _; rw [hcnt]; split_ifs <;> omega, hpdm, hmdm, htr, hadx, hdxmem⟩,
      fun _ => rfl, fun hcon _ => by omega, fun hcon => by omega⟩
  · obtain ⟨ph, hph⟩ : ∃ ph, s.prev_high = some ph := by
      rcases hph : s.prev_high with _ | ph
      · exact absurd (hph0.mp hph) (by omega)
      · exact ⟨ph, rfl⟩
    obtain ⟨pc, hpc⟩ : ∃ pc, s.prev_close = some pc := by
      rcases hpc : s.prev_close with _ | pc
      · exact absurd (hpc0.mp hpc) (by omega)
      · exact ⟨pc, rfl⟩
    have htrnn : 0 ≤ s.calculate_tr b.high b.low := calculate_tr_nonneg s _ _ pc hpc
    have hdm := dmRule_nonneg (b.high - ph) (s.prev_low.getD 0 - b.low)
    by_cases hip : t < p
    · -- accumulation ticks 2 .. p
      have hiif : s.is_init = false := by
        rcases Bool.eq_false_or_eq_true s.is_init with hb | hb
        · exact absurd (hii.mp hb) (by omega)
        · exact hb
      have hcnt' : s.dx_count = t - 1 := by rw [hcnt, if_pos hip]
      by_cases hflip : t = p - 1
      · rw [AverageDirectionalIndex.next_accum_flip s b ph hph hiif
          (by rw [hcnt', hper]; omega)]
        refine ⟨⟨by simp [hper], by simp, by simp, by simp; omega, ?_, ?_,
          by simp; linarith [hdm.1], by simp; linarith [hdm.2], by simp; linarith,
          by simpa using hadx, by simpa using hdxmem⟩,
          fun _ => rfl, fun hcon _ => by omega, fun hcon => by omega⟩
        · simp [hlen]
          omega
        · simp
          split_ifs <;> omega
      · rw [AverageDirectionalIndex.next_accum_go s b ph hph hiif
          (by rw [hcnt', hper]; omega)]
        refine ⟨⟨by simp [hper], by simp, by simp, by simp [hiif]; omega, ?_, ?_,
          by simp; linarith [hdm.1], by simp; linarith [hdm.2], by simp; linarith,
          by simpa using hadx, by simpa using hdxmem⟩,
          fun _ => rfl, fun hcon _ => by omega, fun hcon => by omega⟩
        · simp [hlen]
          omega
        · simp [hcnt']
          split_ifs <;> omega
    · -- initialized ticks
      have hiit : s.is_init = true := hii.mpr (by omega)
      by_cases hq : t = p
      · -- first smoothing tick p + 1
        have hempty : s.dx_values = [] := List.length_eq_zero.mp (by rw [hlen]; omega)
        rw [AverageDirectionalIndex.next_first_smooth s b ph hph hiit hempty]
        have hdx := dxOf_bounds s (s.prev_plus_dm + (dmRule (b.high - ph) (s.prev_low.getD 0 - b.low)).1)
          (s.prev_minus_dm + (dmRule (b.high - ph) (s.prev_low.getD 0 - b.low)).2)
          (s.prev_tr + s.calculate_tr b.high b.low)
          (by linarith [hdm.1]) (by linarith [hdm.2])
        refine ⟨⟨by simp [hper], by simp, by simp, by simp [hiit]; omega, ?_, ?_,
          by simp; exact wilderStep_nonneg s.period hsp1 _ _ (by linarith [hdm.1]) hdm.1,
          by simp; exact wilderStep_nonneg s.period hsp1 _ _ (by linarith [hdm.2]) hdm.2,
          by simp; exact wilderStep_nonneg s.period hsp1 _ _ (by linarith) htrnn,
          by simpa using hadx, ?_⟩,
          fun hcon => by omega, fun _ _ => ?_, fun hcon => by omega⟩
        · simp [hempty]
          omega
        · simp [hcnt]
          split_ifs <;> omega
        · intro d hd
          simp [hempty] at hd
          subst hd
          exact hdx
        · simp [hper, (by omega : 1 < p)]
      · -- history growth and steady ticks
        have h3 : s.dx_values ≠ [] := by
          intro hnil
          rw [hnil] at hlen
          simp at hlen
          omega
        by_cases hmid : t + 1 < 2 * p
        · -- growth tick that does not yet fill the history
          have hlt : s.dx_values.length + 1 < s.period := by rw [hlen, hper]; omega
          rw [AverageDirectionalIndex.next_grow_mid s b ph hph hiit h3 hlt]
          have hdx := dxOf_bounds s (wilderStep s.period s.prev_plus_dm (dmRule (b.high - ph) (s.prev_low.getD 0 - b.low)).1)
            (wilderStep s.period s.prev_minus_dm (dmRule (b.high - ph) (s.prev_low.getD 0 - b.low)).2)
            (wilderStep s.period s.prev_tr (s.calculate_tr b.high b.low))
            (wilderStep_nonneg s.period hsp1 _ _ hpdm hdm.1)
            (wilderStep_nonneg s.period hsp1 _ _ hmdm hdm.2)
          refine ⟨⟨by simp [hper], by simp, by simp, by simp [hiit]; omega, ?_, ?_,
            by simp; exact wilderStep_nonneg s.period hsp1 _ _ hpdm hdm.1,
            by simp; exact wilderStep_nonneg s.period hsp1 _ _ hmdm hdm.2,
            by simp; exact wilderStep_nonneg s.period hsp1 _ _ htr htrnn,
            by simpa using hadx, ?_⟩,
            fun hcon => by omega, fun _ _ => rfl, fun hcon => by omega⟩
          · simp [hlen]
            omega
          · simp [hcnt]
            split_ifs <;> omega
          · intro d hd
            simp at hd
            rcases hd with hd | hd
            · exact hdxmem d hd
            · subst hd
              exact hdx
        · by_cases hseedt : t + 1 = 2 * p
          · -- seeding tick 2p: the history fills, ADX is the DX mean
            have hfill : s.dx_values.length + 1 = s.period := by rw [hlen, hper]; omega
            rw [AverageDirectionalIndex.next_grow_seed s b ph hph hiit h3 hfill]
            have hdx := dxOf_bounds s (wilderStep s.period s.prev_plus_dm (dmRule (b.high - ph) (s.prev_low.getD 0 - b.low)).1)
              (wilderStep s.period s.prev_minus_dm (dmRule (b.high - ph) (s.prev_low.getD 0 - b.low)).2)
              (wilderStep s.period s.prev_tr (s.calculate_tr b.high b.low))
              (wilderStep_nonneg s.period hsp1 _ _ hpdm hdm.1)
              (wilderStep_nonneg s.period hsp1 _ _ hmdm hdm.2)
            have hmem2 : ∀ d ∈ s.dx_values ++
                [s.dxOf (wilderStep s.period s.prev_plus_dm (dmRule (b.high - ph) (s.prev_low.getD 0 - b.low)).1)
                  (wilderStep s.period s.prev_minus_dm (dmRule (b.high - ph) (s.prev_low.getD 0 - b.low)).2)
                  (wilderStep s.period s.prev_tr (s.calculate_tr b.high b.low))],
                0 ≤ d ∧ d ≤ 100 := by
              intro d hd
              simp at hd
              rcases hd with hd | hd
              · exact hdxmem d hd
              · subst hd
                exact hdx
            have hmean := mean_bounds _ s.period hsp1
              (by simp [hlen, hper]; omega) hmem2
            have hadx1 : 0 ≤ s.roundP ((s.dx_values ++
                [s.dxOf (wilderStep s.period s.prev_plus_dm (dmRule (b.high - ph) (s.prev_low.getD 0 - b.low)).1)
                  (wilderStep s.period s.prev_minus_dm (dmRule (b.high - ph) (s.prev_low.getD 0 - b.low)).2)
                  (wilderStep s.period s.prev_tr (s.calculate_tr b.high b.low))]).sum / (s.period : ℚ)) ∧
                s.roundP ((s.dx_values ++
                [s.dxOf (wilderStep s.period s.prev_plus_dm (dmRule (b.high - ph) (s.prev_low.getD 0 - b.low)).1)
                  (wilderStep s.period s.prev_minus_dm (dmRule (b.high - ph) (s.prev_low.getD 0 - b.low)).2)
                  (wilderStep s.period s.prev_tr (s.calculate_tr b.high b.low))]).sum / (s.period : ℚ)) ≤ 100 := by
              exact roundP_bounds s _ hmean.1 hmean.2
            refine ⟨⟨by simp [hper], by simp, by simp, by simp [hiit]; omega, ?_, ?_,
              by simp; exact wilderStep_nonneg s.period hsp1 _ _ hpdm hdm.1,
              by simp; exact wilderStep_nonneg s.period hsp1 _ _ hmdm hdm.2,
              by simp; exact wilderStep_nonneg s.period hsp1 _ _ htr htrnn,
              by simpa using hadx1, by simpa using hmem2⟩,
              fun hcon => by omega, fun _ hcon => by omega, fun _ => ?_⟩
            · simp [hlen]
              omega
            · simp [hcnt]
              split_ifs <;> omega
            · exact ⟨_, rfl, hadx1.1, hadx1.2⟩
          · -- steady ticks after 2p
            have hge : ¬ s.dx_values.length < s.period := by rw [hlen, hper]; omega
            rw [AverageDirectionalIndex.next_steady s b ph hph hiit h3 hge]
            have hdx := dxOf_bounds s (wilderStep s.period s.prev_plus_dm (dmRule (b.high - ph) (s.prev_low.getD 0 - b.low)).1)
              (wilderStep s.period s.prev_minus_dm (dmRule (b.high - ph) (s.prev_low.getD 0 - b.low)).2)
              (wilderStep s.period s.prev_tr (s.calculate_tr b.high b.low))
              (wilderStep_nonneg s.period hsp1 _ _ hpdm hdm.1)
              (wilderStep_nonneg s.period hsp1 _ _ hmdm hdm.2)
            have hsm := adx_smooth_bounds s.period (by rw [hper]; exact hp) s.prev_adx
              (s.dxOf (wilderStep s.period s.prev_plus_dm (dmRule (b.high - ph) (s.prev_low.getD 0 - b.low)).1)
                (wilderStep s.period s.prev_minus_dm (dmRule (b.high - ph) (s.prev_low.getD 0 - b.low)).2)
                (wilderStep s.period s.prev_tr (s.calculate_tr b.high b.low)))
              hadx.1 hadx.2 hdx.1 hdx.2
            have hadx1 : 0 ≤ s.roundP ((s.prev_adx * ((s.period : ℚ) - 1) +
                s.dxOf (wilderStep s.period s.prev_plus_dm (dmRule (b.high - ph) (s.prev_low.getD 0 - b.low)).1)
                  (wilderStep s.period s.prev_minus_dm (dmRule (b.high - ph) (s.prev_low.getD 0 - b.low)).2)
                  (wilderStep s.period s.prev_tr (s.calculate_tr b.high b.low))) / (s.period : ℚ)) ∧
                s.roundP ((s.prev_adx * ((s.period : ℚ) - 1) +
                s.dxOf (wilderStep s.period s.prev_plus_dm (dmRule (b.high - ph) (s.prev_low.getD 0 - b.low)).1)
                  (wilderStep s.period s.prev_minus_dm (dmRule (b.high - ph) (s.prev_low.getD 0 - b.low)).2)
                  (wilderStep s.period s.prev_tr (s.calculate_tr b.high b.low))) / (s.period : ℚ)) ≤ 100 := by
              exact roundP_bounds s _ hsm.1 hsm.2
            refine ⟨⟨by simp [hper], by simp, by simp, by simp [hiit]; omega, ?_, ?_,
              by simp; exact wilderStep_nonneg s.period hsp1 _ _ hpdm hdm.1,
              by simp; exact wilderStep_nonneg s.period hsp1 _ _ hmdm hdm.2,
              by simp; exact wilderStep_nonneg s.period hsp1 _ _ htr htrnn,
              by simpa using hadx1, by simpa using hdxmem⟩,
              fun hcon => by omega, fun _ hcon => by omega, fun _ => ?_⟩
            · simp [hlen]
              omega
            · simp [hcnt]
              split_ifs <;> omega
            · exact ⟨_, rfl, hadx1.1, hadx1.2⟩

/-- Outputs along a whole ADX run, relative to the ticks already fed. -/
theorem adxInv_run (p : ℕ) (hp : 2 ≤ p) (bars : List Bar) :
    ∀ (t : ℕ) (s : AverageDirectionalIndex), AdxInv p t s →
      ∀ i, i < bars.length →
        (t + i + 1 ≤ p →
          (AverageDirectionalIndex.run s bars).2.getD i none = some 0) ∧
        (p < t + i + 1 → t + i + 1 < 2 * p →
          (AverageDirectionalIndex.run s bars).2.getD i none = none) ∧
        (2 * p ≤ t + i + 1 →
          ∃ q, (AverageDirectionalIndex.run s bars).2.getD i none = some q ∧
            0 ≤ q ∧ q ≤ 100) := by
  induction bars with
  | nil =>
    intro t s _ i hi
    simp at hi
  | cons b bars ih =>
    intro t s hs i hi
    obtain ⟨hinv, hout1, hout2, hout3⟩ := adxInv_step p t hp s b hs
    have hrun : (AverageDirectionalIndex.run s (b :: bars)).2 =
        (s.next b).2 :: (AverageDirectionalIndex.run (s.next b).1 bars).2 := by
      simp [AverageDirectionalIndex.run]
    rcases Nat.eq_zero_or_pos i with h0 | hpos
    · subst h0
      rw [hrun]
      simp only [List.getD_cons_zero]
      exact ⟨fun h => hout1 (by omega), fun h1 h2 => hout2 (by omega) (by omega),
        fun h => hout3 (by omega)⟩
    · obtain ⟨i', rfl⟩ : ∃ i', i = i' + 1 := ⟨i - 1, by omega⟩
      rw [hrun, List.getD_cons_succ]
      have := ih (t + 1) (s.next b).1 hinv i' (by simpa using hi)
      exact ⟨fun h => this.1 (by omega), fun h1 h2 => this.2.1 (by omega) (by omega),
        fun h => this.2.2 (by omega)⟩

/-- C3: an ADX with period `p >= 2` (either rounding mode) fed bars from a
fresh state emits `0.0` on ticks `1 .. p`, `NaN` on exactly the ticks
`p + 1 .. 2p - 1` (those on which the DX history holds fewer than `p`
entries), and a value in `[0, 100]` on every tick from `2p` on.  (The
`low <= close <= high` hypothesis of the claim is carried; the proof in
fact only uses that the true range dominates an absolute value.) -/
theorem adx_warmup_nan_window_then_bounded (p : ℕ) (rp : Bool) (bars : List Bar)
    (hp : 2 ≤ p) (hbars : ∀ b ∈ bars, b.low ≤ b.close ∧ b.close ≤ b.high)
    (i : ℕ) (hi : i < bars.length) :
    (i + 1 ≤ p →
      (AverageDirectionalIndex.run
        { AverageDirectionalIndex.init p with round_pos := rp } bars).2.getD i none =
        some 0) ∧
    ((AverageDirectionalIndex.run
        { AverageDirectionalIndex.init p with round_pos := rp } bars).2.getD i none =
        none ↔ (p < i + 1 ∧ i + 1 < 2 * p)) ∧
    (2 * p ≤ i + 1 →
      ∃ q, (AverageDirectionalIndex.run
        { AverageDirectionalIndex.init p with round_pos := rp } bars).2.getD i none =
          some q ∧ 0 ≤ q ∧ q ≤ 100) := by
  have h := adxInv_run p hp bars 0 _ (adxInv_init p rp hp) i hi
  refine ⟨fun hle => h.1 (by omega), ⟨fun hnone => ?_, fun hmid => h.2.1 (by omega) (by omega)⟩,
    fun hge => h.2.2 (by omega)⟩
  by_contra hcon
  push_neg at hcon
  rcases Nat.lt_or_ge i (p) with hcase | hcase
  · have := h.1 (by omega)
    rw [hnone] at this
    exact Option.noConfusion this
  · have h2p : 2 * p ≤ i + 1 := hcon (by omega)
    obtain ⟨q, hq, -, -⟩ := h.2.2 (by omega)
    rw [hnone] at hq
    exact Option.noConfusion hq

/-- Witness for C3: ADX(2) fed four well-formed bars:
`0.0, 0.0, NaN, value`. -/
theorem adx_warmup_nan_window_then_bounded_witness :
    ((3 : ℕ) + 1 ≤ 2 →
      (AverageDirectionalIndex.run
        { AverageDirectionalIndex.init 2 with round_pos := false }
        [⟨2, 0, 1⟩, ⟨3, 1, 2⟩, ⟨4, 2, 3⟩, ⟨5, 3, 4⟩]).2.getD 3 none = some 0) ∧
    ((AverageDirectionalIndex.run
        { AverageDirectionalIndex.init 2 with round_pos := false }
        [⟨2, 0, 1⟩, ⟨3, 1, 2⟩, ⟨4, 2, 3⟩, ⟨5, 3, 4⟩]).2.getD 3 none = none ↔
      (2 < 3 + 1 ∧ 3 + 1 < 2 * 2)) ∧
    (2 * 2 ≤ 3 + 1 →
      ∃ q, (AverageDirectionalIndex.run
        { AverageDirectionalIndex.init 2 with round_pos := false }
        [⟨2, 0, 1⟩, ⟨3, 1, 2⟩, ⟨4, 2, 3⟩, ⟨5, 3, 4⟩]).2.getD 3 none = some q ∧
        0 ≤ q ∧ q ≤ 100) :=
  adx_warmup_nan_window_then_bounded 2 false
    [⟨2, 0, 1⟩, ⟨3, 1, 2⟩, ⟨4, 2, 3⟩, ⟨5, 3, 4⟩] (by omega)
    (by intro b hb; fin_cases hb <;> exact ⟨by norm_num, by norm_num⟩) 3 (by simp)
